import Mathlib

/-!
# MiniDatabase index engine (`Engine.h`)

A shallow embedding of the record heap and its two binary-search-tree indexes,
followed by the properties of `insertRecord`, `deleteById`, `findById`,
`rangeById` and `prefixByLast`.

Conventions of the embedding:

* a C++ `std::string` is the list of its bytes (`CString`), ordered
  lexicographically as `std::string::operator<` does;
* a `const Record *` returned by a lookup always points into `heap`, so it is
  represented by the slot it points to;
* `int` ids and counters are mathematical integers and heap slots are natural
  numbers (the source does no arithmetic on ids; wrap-around of a slot or of a
  counter needs more than `2^31` records or comparisons and is not modelled);
* a method that mutates the engine returns the new engine next to its result.
-/

namespace MiniDB

/-! ## Strings -/

/-- A `std::string`: the sequence of its bytes, each a number below 256. -/
abbrev CString := List Nat

/-- The bytes of an ASCII string literal. -/
def str (s : String) : CString := s.toList.map Char.toNat

/-- The C library `tolower` in the default "C" locale, on a byte. -/
def tolower (c : Nat) : Nat := if 65 ≤ c ∧ c ≤ 90 then c + 32 else c

/-- Converts a string to lowercase, byte by byte (`toLower` of `Engine.h`). -/
def toLower (s : CString) : CString := s.map tolower

/-! ## Records -/

/-- Modelled from the spec: `Record.h` is not among the sources. The engine reads
`id`, `last` and `deleted` and writes `deleted`; all remaining fields of the
record are carried, untouched, in `payload`. -/
structure Record where
  id : Int
  last : CString
  payload : CString
  deleted : Bool
deriving DecidableEq, Repr

/-! ## The ordered map `BST<K, V>` -/

/-- Modelled from the spec: `BST.h` is not among the sources. A tree node owns
one key, one value and at most two subtrees. -/
inductive Node (K V : Type) where
  | nil : Node K V
  | node (left : Node K V) (key : K) (value : V) (right : Node K V) : Node K V
deriving DecidableEq, Repr

/-- Modelled from the spec: `BST.h` is not among the sources. The map is its
root together with the running `comparisons` counter. -/
structure BST (K V : Type) where
  root : Node K V
  comparisons : Int
deriving DecidableEq, Repr

namespace Node

variable {K V : Type} [LinearOrder K]

/-- Modelled from the spec: the descent of `BST::find`, from the root, comparing
the key against each visited node. -/
def find (k : K) : Node K V → Option V
  | nil => none
  | node l key v r =>
    if k = key then some v
    else if k < key then find k l
    else find k r

/-- Modelled from the spec: the number of nodes whose key `find`, `insert`,
`erase` compare against `k` (one counted comparison per visited node). -/
def findCmps (k : K) : Node K V → Nat
  | nil => 0
  | node l key _ r =>
    if k = key then 1
    else if k < key then findCmps k l + 1
    else findCmps k r + 1

/-- Modelled from the spec: `BST::insert`; an existing key has its value
overwritten in place, a new key becomes a leaf at the position the ordering
dictates. -/
def insert (k : K) (v : V) : Node K V → Node K V
  | nil => node nil k v nil
  | node l key val r =>
    if k = key then node l key v r
    else if k < key then node (insert k v l) key val r
    else node l key val (insert k v r)

/-- A write through the pointer `find` returned: the value stored at the node
`find k` stops at is replaced by `f` of it; nothing changes when `find k` is
not-found. -/
def modify (k : K) (f : V → V) : Node K V → Node K V
  | nil => nil
  | node l key val r =>
    if k = key then node l key (f val) r
    else if k < key then node (modify k f l) key val r
    else node l key val (modify k f r)

/-- Modelled from the spec: the in-order successor used by `erase`, the
leftmost entry of a subtree, with `d` returned for the empty subtree. -/
def minEntry (d : K × V) : Node K V → K × V
  | nil => d
  | node nil key val _ => (key, val)
  | node (node ll lk lv lr) _ _ _ => minEntry d (node ll lk lv lr)

/-- Modelled from the spec: removes the leftmost node of a subtree, splicing
its right child into its place. -/
def eraseMin : Node K V → Node K V
  | nil => nil
  | node nil _ _ r => r
  | node (node ll lk lv lr) key val r => node (eraseMin (node ll lk lv lr)) key val r

/-- Modelled from the spec: `BST::erase`. A node with at most one child is
replaced by that child; a node with two children takes the key and value of
its in-order successor, which is then removed from the right subtree. -/
def erase (k : K) : Node K V → Node K V
  | nil => nil
  | node l key val r =>
    if k = key then
      match l, r with
      | nil, _ => r
      | node ll lk lv lr, nil => node ll lk lv lr
      | node ll lk lv lr, node rl rk rv rr =>
        let s := minEntry (key, val) (node rl rk rv rr)
        node (node ll lk lv lr) s.1 s.2 (eraseMin (node rl rk rv rr))
    else if k < key then node (erase k l) key val r
    else node l key val (erase k r)

/-- Modelled from the spec: `BST::rangeApply`, the pruned in-order traversal
calling `f key value` on every entry with `lo <= key <= hi`; the callback's
effect on what it captures is the state `σ` threaded through. -/
def rangeApply {σ : Type} (lo hi : K) (f : K → V → σ → σ) : Node K V → σ → σ
  | nil, acc => acc
  | node l key val r, acc =>
    if key < lo then rangeApply lo hi f r acc
    else if hi < key then rangeApply lo hi f l acc
    else rangeApply lo hi f r (f key val (rangeApply lo hi f l acc))

/-- Modelled from the spec: the key-versus-bound comparisons of `rangeApply`,
one against `lo` at every visited node and one against `hi` when the first does
not prune. -/
def rangeCmps (lo hi : K) : Node K V → Nat
  | nil => 0
  | node l key _ r =>
    if key < lo then rangeCmps lo hi r + 1
    else if hi < key then rangeCmps lo hi l + 2
    else rangeCmps lo hi l + rangeCmps lo hi r + 2

/-- The entries of a tree in in-order. -/
def toList : Node K V → List (K × V)
  | nil => []
  | node l k v r => toList l ++ (k, v) :: toList r

/-- The ordering invariant: the in-order keys are strictly ascending. -/
def IsBST (t : Node K V) : Prop := t.toList.Pairwise (fun a b => a.1 < b.1)

/-- The entries `rangeApply lo hi` hands to its callback, in call order. -/
def rangeEntries (lo hi : K) : Node K V → List (K × V)
  | nil => []
  | node l k v r =>
    if k < lo then rangeEntries lo hi r
    else if hi < k then rangeEntries lo hi l
    else rangeEntries lo hi l ++ (k, v) :: rangeEntries lo hi r

end Node

namespace BST

variable {K V : Type} [LinearOrder K]

/-- The empty map, counter at zero. -/
def empty : BST K V := { root := Node.nil, comparisons := 0 }

/-- Modelled from the spec: `BST::find`, result and map with advanced counter. -/
def find (t : BST K V) (k : K) : Option V × BST K V :=
  (t.root.find k, { t with comparisons := t.comparisons + (t.root.findCmps k : Nat) })

/-- Modelled from the spec: `BST::insert`. -/
def insert (t : BST K V) (k : K) (v : V) : BST K V :=
  { root := t.root.insert k v, comparisons := t.comparisons + (t.root.findCmps k : Nat) }

/-- Modelled from the spec: `BST::erase` (its boolean result is never read by
the engine). -/
def erase (t : BST K V) (k : K) : BST K V :=
  { root := t.root.erase k, comparisons := t.comparisons + (t.root.findCmps k : Nat) }

/-- Modelled from the spec: `BST::rangeApply`, returning the callback's final
state and the map with advanced counter. -/
def rangeApply {σ : Type} (t : BST K V) (lo hi : K) (f : K → V → σ → σ) (acc : σ) :
    σ × BST K V :=
  (t.root.rangeApply lo hi f acc,
   { t with comparisons := t.comparisons + (t.root.rangeCmps lo hi : Nat) })

end BST

/-! ## The engine -/

/-- The `Engine` struct: the record heap and the two indexes. -/
structure Engine where
  heap : List Record
  idIndex : BST Int Nat
  lastIndex : BST CString (List Nat)
deriving DecidableEq, Repr

namespace Engine

/-- A freshly constructed engine. -/
def empty : Engine := { heap := [], idIndex := BST.empty, lastIndex := BST.empty }

/-- `Engine::insertRecord`: returns the record's slot and the new engine. -/
def insertRecord (e : Engine) (recIn : Record) : Nat × Engine :=
  let heap := e.heap ++ [recIn]
  let recordIndex := heap.length - 1
  let idIndex := e.idIndex.insert recIn.id recordIndex
  let lastLower := toLower recIn.last
  let found := e.lastIndex.find lastLower
  match found.1 with
  | some _ =>
    (recordIndex,
     { heap := heap, idIndex := idIndex,
       lastIndex := { found.2 with
         root := found.2.root.modify lastLower (fun lst => lst ++ [recordIndex]) } })
  | none =>
    (recordIndex,
     { heap := heap, idIndex := idIndex,
       lastIndex := found.2.insert lastLower [recordIndex] })

/-- The search loop of `deleteById`: the first slot, from slot 0 forward,
whose record has the id, with that record's last name. -/
def scanHeap (id : Int) : List Record → Option (Nat × CString)
  | [] => none
  | r :: rs =>
    if r.id = id then some (0, r.last)
    else (scanHeap id rs).map (fun p => (p.1 + 1, p.2))

/-- The assignment `heap[i].deleted = true`. -/
def setDeleted : List Record → Nat → List Record
  | [], _ => []
  | r :: rs, 0 => { r with deleted := true } :: rs
  | r :: rs, i + 1 => r :: setDeleted rs i

/-- `Engine::deleteById`: returns the boolean result and the new engine. -/
def deleteById (e : Engine) (id : Int) : Bool × Engine :=
  match scanHeap id e.heap with
  | none => (false, e)
  | some (recordIndex, lastName) =>
    let heap := setDeleted e.heap recordIndex
    let idIndex := e.idIndex.erase id
    let lastLower := toLower lastName
    let found := e.lastIndex.find lastLower
    match found.1 with
    | some _ =>
      (true,
       { heap := heap, idIndex := idIndex,
         lastIndex := { found.2 with
           root := found.2.root.modify lastLower (fun lst => lst.erase recordIndex) } })
    | none => (true, { heap := heap, idIndex := idIndex, lastIndex := found.2 })

/-- The result of a lookup: what is returned, the reported `cmpOut`, and the
engine after the call. -/
structure Lookup (α : Type) where
  result : α
  cmpOut : Int
  engine : Engine

/-- `Engine::findById`: the slot of the returned record, or `none` for
`nullptr`. Reading `heap[*foundIndex]` outside the heap is undefined in the
source and is reported as `none` here. -/
def findById (e : Engine) (id : Int) : Lookup (Option Nat) :=
  let comparisons := e.idIndex.comparisons
  let found := e.idIndex.find id
  let cmpOut := found.2.comparisons - comparisons
  let e1 : Engine := { e with idIndex := found.2 }
  match found.1 with
  | none => ⟨none, cmpOut, e1⟩
  | some foundIndex =>
    match e.heap[foundIndex]? with
    | none => ⟨none, cmpOut, e1⟩
    | some record => if record.deleted then ⟨none, cmpOut, e1⟩ else ⟨some foundIndex, cmpOut, e1⟩

/-- The callback `findRecords` of `rangeById`, acting on `results`. -/
def rangeCallback (heap : List Record) (_id : Int) (recordIndex : Nat)
    (results : List Nat) : List Nat :=
  match heap[recordIndex]? with
  | none => results
  | some record => if !record.deleted then results ++ [recordIndex] else results

/-- `Engine::rangeById`: the slots of the returned records, in order. -/
def rangeById (e : Engine) (lo hi : Int) : Lookup (List Nat) :=
  let comparisons := e.idIndex.comparisons
  let out := e.idIndex.rangeApply lo hi (rangeCallback e.heap) []
  ⟨out.1, out.2.comparisons - comparisons, { e with idIndex := out.2 }⟩

/-- The inner loop of the `prefixByLast` callback: whether the first
`lowerPrefix.size()` bytes of the name equal those of the prefix. -/
def prefixMatches : CString → CString → Bool
  | _, [] => true
  | [], _ :: _ => false
  | c :: name, p :: pre => if c ≠ p then false else prefixMatches name pre

/-- The callback `findRecords` of `prefixByLast`, acting on `results`. -/
def prefixCallback (heap : List Record) (lowerPrefix : CString) (lastName : CString)
    (recordIndexes : List Nat) (results : List Nat) : List Nat :=
  let lowerLastName := toLower lastName
  recordIndexes.foldl
    (fun res recordIndex =>
      match heap[recordIndex]? with
      | none => res
      | some record =>
        if !record.deleted && decide (lowerPrefix.length ≤ lowerLastName.length) then
          if prefixMatches lowerLastName lowerPrefix then res ++ [recordIndex] else res
        else res)
    results

/-- `Engine::prefixByLast`: the slots of the returned records, in order. -/
def prefixByLast (e : Engine) (pre : CString) : Lookup (List Nat) :=
  let lowerPrefix := toLower pre
  let comparisons := e.lastIndex.comparisons
  let out := e.lastIndex.rangeApply lowerPrefix (lowerPrefix ++ str "z")
    (prefixCallback e.heap lowerPrefix) []
  ⟨out.1, out.2.comparisons - comparisons, { e with lastIndex := out.2 }⟩

end Engine

/-- Shorthand for a live record with empty payload. -/
def mkRec (id : Int) (last : String) : Record :=
  { id := id, last := str last, payload := [], deleted := false }

/-! ## Reachable states and the consistency invariant -/

/-- Whether slot `s` is inside the heap and its record is not tombstoned. -/
def live (heap : List Record) (s : Nat) : Bool :=
  match heap[s]? with
  | some r => !r.deleted
  | none => false

/-- The states an engine can be in: any sequence of the five operations,
started on a fresh engine. -/
inductive Reachable : Engine → Prop
  | init : Reachable Engine.empty
  | insertRecord (e : Engine) (r : Record) : Reachable e → Reachable (e.insertRecord r).2
  | deleteById (e : Engine) (id : Int) : Reachable e → Reachable (e.deleteById id).2
  | findById (e : Engine) (id : Int) : Reachable e → Reachable (e.findById id).engine
  | rangeById (e : Engine) (lo hi : Int) : Reachable e → Reachable (e.rangeById lo hi).engine
  | prefixByLast (e : Engine) (pre : CString) :
      Reachable e → Reachable (e.prefixByLast pre).engine

/-- The states reached when no id is ever inserted twice: each inserted id
differs from the id of every record already in the heap, which holds every
record inserted so far. -/
inductive ReachableDistinct : Engine → Prop
  | init : ReachableDistinct Engine.empty
  | insertRecord (e : Engine) (r : Record) :
      ReachableDistinct e → (∀ r0 ∈ e.heap, r0.id ≠ r.id) →
      ReachableDistinct (e.insertRecord r).2
  | deleteById (e : Engine) (id : Int) :
      ReachableDistinct e → ReachableDistinct (e.deleteById id).2
  | findById (e : Engine) (id : Int) :
      ReachableDistinct e → ReachableDistinct (e.findById id).engine
  | rangeById (e : Engine) (lo hi : Int) :
      ReachableDistinct e → ReachableDistinct (e.rangeById lo hi).engine
  | prefixByLast (e : Engine) (pre : CString) :
      ReachableDistinct e → ReachableDistinct (e.prefixByLast pre).engine

/-- Consistency of the two indexes with the heap: both trees are ordered, an
`idIndex` entry points to a heap record with that id, and every slot listed
under a name points to a heap record with that lowercased last name, each
list being strictly increasing. -/
structure Inv (e : Engine) : Prop where
  idBST : e.idIndex.root.IsBST
  idSlots : ∀ p ∈ e.idIndex.root.toList, ∃ r, e.heap[p.2]? = some r ∧ r.id = p.1
  lastBST : e.lastIndex.root.IsBST
  lastSlots : ∀ p ∈ e.lastIndex.root.toList,
    p.2.Pairwise (fun a b => a < b) ∧
      ∀ s ∈ p.2, ∃ r, e.heap[s]? = some r ∧ toLower r.last = p.1

/-- The extra consistency of a state without reused ids: heap ids are pairwise
distinct and every live record is indexed under its id. -/
structure InvDistinct (e : Engine) : Prop where
  inv : Inv e
  ids : (e.heap.map Record.id).Nodup
  indexed : ∀ s r, e.heap[s]? = some r → r.deleted = false →
    (r.id, s) ∈ e.idIndex.root.toList

/-- The test the `prefixByLast` callback applies to a slot of an entry. -/
def prefixKeep (heap : List Record) (lowerPrefix lastName : CString) (s : Nat) : Bool :=
  live heap s && (decide (lowerPrefix.length ≤ (toLower lastName).length) &&
    Engine.prefixMatches (toLower lastName) lowerPrefix)

/-- The engine after inserting ids 10, 5, 20, 15 in that order. -/
def fourIds : Engine :=
  ((((Engine.empty.insertRecord (mkRec 10 "Lee")).2.insertRecord (mkRec 5 "Kim")).2.insertRecord
    (mkRec 20 "Park")).2.insertRecord (mkRec 15 "Choi")).2

/-- The states reached when every inserted record comes with its tombstone
flag clear (ids may repeat). -/
inductive ReachableLive : Engine → Prop
  | init : ReachableLive Engine.empty
  | insertRecord (e : Engine) (r : Record) :
      ReachableLive e → r.deleted = false → ReachableLive (e.insertRecord r).2
  | deleteById (e : Engine) (id : Int) : ReachableLive e → ReachableLive (e.deleteById id).2
  | findById (e : Engine) (id : Int) : ReachableLive e → ReachableLive (e.findById id).engine
  | rangeById (e : Engine) (lo hi : Int) :
      ReachableLive e → ReachableLive (e.rangeById lo hi).engine
  | prefixByLast (e : Engine) (pre : CString) :
      ReachableLive e → ReachableLive (e.prefixByLast pre).engine

/-- Every live heap slot is listed in `lastIndex` under its lowercased last name. -/
def Listed (e : Engine) : Prop :=
  ∀ (s : Nat) (r : Record), e.heap[s]? = some r → r.deleted = false →
    ∃ lst, (toLower r.last, lst) ∈ e.lastIndex.root.toList ∧ s ∈ lst

/-- Every slot held by either index is a live heap slot. -/
structure IndexedLive (e : Engine) : Prop where
  idLive : ∀ p ∈ e.idIndex.root.toList, live e.heap p.2 = true
  lastLive : ∀ p ∈ e.lastIndex.root.toList, ∀ s ∈ p.2, live e.heap s = true

/-- The engine after inserting two live records that both have id 3. -/
def sameIdTwice : Engine :=
  ((Engine.empty.insertRecord (mkRec 3 "Smith")).2.insertRecord (mkRec 3 "Jones")).2

/-- The engine after `insertRecord(r1)` and `deleteById(r1.id)` on a fresh engine. -/
def reinsertRun1 (r1 : Record) : Engine :=
  ((Engine.empty.insertRecord r1).2.deleteById r1.id).2

/-- The engine after `insertRecord(r1)`, `deleteById(r1.id)`, `insertRecord(r2)`,
`deleteById(r1.id)` on a fresh engine. -/
def reinsertRun (r1 r2 : Record) : Engine :=
  (((reinsertRun1 r1).insertRecord r2).2.deleteById r1.id).2

/-! ## In-order contents and the ordering invariant of a tree -/

namespace Node

variable {K V : Type} [LinearOrder K]

theorem isBST_nil : IsBST (nil : Node K V) := by
  simp [IsBST, toList]

theorem isBST_node (l r : Node K V) (k : K) (v : V) :
    IsBST (node l k v r) ↔
      IsBST l ∧ IsBST r ∧ (∀ e ∈ l.toList, e.1 < k) ∧ (∀ e ∈ r.toList, k < e.1) := by
  unfold IsBST
  simp only [toList, List.pairwise_append, List.pairwise_cons, List.mem_cons]
  constructor
  · rintro ⟨hl, ⟨hkr, hr⟩, hlr⟩
    exact ⟨hl, hr, fun e he => hlr e he (k, v) (Or.inl rfl), hkr⟩
  · rintro ⟨hl, hr, hlk, hkr⟩
    refine ⟨hl, ⟨hkr, hr⟩, ?_⟩
    intro a ha b hb
    rcases hb with rfl | hb
    · exact hlk a ha
    · exact lt_trans (hlk a ha) (hkr b hb)

theorem rangeApply_eq_foldl {σ : Type} (lo hi : K) (f : K → V → σ → σ) (t : Node K V)
    (acc : σ) :
    rangeApply lo hi f t acc
      = (rangeEntries lo hi t).foldl (fun a e => f e.1 e.2 a) acc := by
  induction t generalizing acc with
  | nil => rfl
  | node l k v r ihl ihr =>
    simp only [rangeApply, rangeEntries]
    split_ifs <;> simp [ihl, ihr, List.foldl_append]

theorem rangeEntries_sublist (lo hi : K) (t : Node K V) :
    (rangeEntries lo hi t).Sublist t.toList := by
  induction t with
  | nil => simp [rangeEntries, toList]
  | node l k v r ihl ihr =>
    simp only [rangeEntries, toList]
    split_ifs
    · exact ihr.trans ((List.sublist_cons_self _ _).trans (List.sublist_append_right _ _))
    · exact ihl.trans (List.sublist_append_left _ _)
    · exact List.Sublist.append ihl (ihr.cons₂ _)

theorem rangeEntries_bounds (lo hi : K) (t : Node K V) (e : K × V)
    (he : e ∈ rangeEntries lo hi t) : lo ≤ e.1 ∧ e.1 ≤ hi := by
  induction t with
  | nil => simp [rangeEntries] at he
  | node l k v r ihl ihr =>
    simp only [rangeEntries] at he
    split_ifs at he with h1 h2
    · exact ihr he
    · exact ihl he
    · rcases List.mem_append.1 he with h | h
      · exact ihl h
      · rcases List.mem_cons.1 h with rfl | h
        · exact ⟨not_lt.1 h1, not_lt.1 h2⟩
        · exact ihr h

theorem mem_rangeEntries (lo hi : K) (t : Node K V) (ht : IsBST t) (e : K × V)
    (he : e ∈ t.toList) (h1 : lo ≤ e.1) (h2 : e.1 ≤ hi) : e ∈ rangeEntries lo hi t := by
  induction t with
  | nil => simp [toList] at he
  | node l k v r ihl ihr =>
    obtain ⟨hl, hr, hlk, hkr⟩ := (isBST_node l r k v).1 ht
    simp only [toList, List.mem_append, List.mem_cons] at he
    simp only [rangeEntries]
    split_ifs with c1 c2
    · rcases he with he | rfl | he
      · exact absurd (lt_trans (hlk e he) c1) (not_lt.2 h1)
      · exact absurd c1 (not_lt.2 h1)
      · exact ihr hr he
    · rcases he with he | rfl | he
      · exact ihl hl he
      · exact absurd c2 (not_lt.2 h2)
      · exact absurd (lt_trans c2 (hkr e he)) (not_lt.2 h2)
    · rcases he with he | rfl | he
      · exact List.mem_append.2 (Or.inl (ihl hl he))
      · simp
      · exact List.mem_append.2 (Or.inr (List.mem_cons_of_mem _ (ihr hr he)))

/-! ### `find`, `insert`, `modify` -/

theorem find_insert_self (k : K) (v : V) (t : Node K V) : (insert k v t).find k = some v := by
  induction t with
  | nil => simp [insert, find]
  | node l key val r ihl ihr =>
    simp only [insert]
    split_ifs with h1 h2
    · simp [find, h1]
    · simp [find, h1, h2, ihl]
    · simp [find, h1, h2, ihr]

theorem mem_of_find (k : K) (v : V) (t : Node K V) (h : t.find k = some v) :
    (k, v) ∈ t.toList := by
  induction t with
  | nil => simp [find] at h
  | node l key val r ihl ihr =>
    simp only [find] at h
    simp only [toList, List.mem_append, List.mem_cons]
    split_ifs at h with h1 h2
    · simp only [Option.some.injEq] at h
      subst h1 h
      exact Or.inr (Or.inl rfl)
    · exact Or.inl (ihl h)
    · exact Or.inr (Or.inr (ihr h))

theorem find_eq_none (k : K) (t : Node K V) (h : ∀ e ∈ t.toList, e.1 ≠ k) :
    t.find k = none := by
  induction t with
  | nil => rfl
  | node l key val r ihl ihr =>
    simp only [toList, List.mem_append, List.mem_cons] at h
    have hk : ¬ k = key := fun hk => h (key, val) (Or.inr (Or.inl rfl)) hk.symm
    simp only [find, hk, if_false]
    split_ifs
    · exact ihl fun e he => h e (Or.inl he)
    · exact ihr fun e he => h e (Or.inr (Or.inr he))

theorem find_of_mem (k : K) (v : V) (t : Node K V) (ht : IsBST t) (h : (k, v) ∈ t.toList) :
    t.find k = some v := by
  induction t with
  | nil => simp [toList] at h
  | node l key val r ihl ihr =>
    obtain ⟨hl, hr, hlk, hkr⟩ := (isBST_node l r key val).1 ht
    simp only [toList, List.mem_append, List.mem_cons, Prod.mk.injEq] at h
    simp only [find]
    rcases h with h | ⟨rfl, rfl⟩ | h
    · have := hlk _ h
      simp only at this
      rw [if_neg (ne_of_lt this), if_pos this]
      exact ihl hl h
    · simp
    · have := hkr _ h
      simp only at this
      rw [if_neg (ne_of_gt this), if_neg (not_lt_of_gt this)]
      exact ihr hr h

theorem mem_insert_self (k : K) (v : V) (t : Node K V) : (k, v) ∈ (insert k v t).toList := by
  induction t with
  | nil => simp [insert, toList]
  | node l key val r ihl ihr =>
    simp only [insert]
    split_ifs with h1 h2
    · subst h1
      simp [toList]
    · simp [toList, ihl]
    · simp [toList, ihr]

theorem mem_insert_of_mem (k : K) (v : V) (t : Node K V) (e : K × V) (he : e ∈ t.toList)
    (hk : e.1 ≠ k) : e ∈ (insert k v t).toList := by
  induction t with
  | nil => simp [toList] at he
  | node l key val r ihl ihr =>
    simp only [toList, List.mem_append, List.mem_cons] at he
    simp only [insert]
    split_ifs with h1 h2
    · subst h1
      simp only [toList, List.mem_append, List.mem_cons]
      rcases he with he | rfl | he
      · exact Or.inl he
      · exact absurd rfl hk
      · exact Or.inr (Or.inr he)
    · simp only [toList, List.mem_append, List.mem_cons]
      rcases he with he | rfl | he
      · exact Or.inl (ihl he)
      · exact Or.inr (Or.inl rfl)
      · exact Or.inr (Or.inr he)
    · simp only [toList, List.mem_append, List.mem_cons]
      rcases he with he | rfl | he
      · exact Or.inl he
      · exact Or.inr (Or.inl rfl)
      · exact Or.inr (Or.inr (ihr he))

theorem mem_insert (k : K) (v : V) (t : Node K V) (e : K × V)
    (he : e ∈ (insert k v t).toList) : e = (k, v) ∨ e ∈ t.toList := by
  induction t with
  | nil =>
    simp only [insert, toList, List.nil_append, List.mem_singleton] at he
    exact Or.inl he
  | node l key val r ihl ihr =>
    simp only [insert] at he
    simp only [toList, List.mem_append, List.mem_cons]
    split_ifs at he with h1 h2
    · subst h1
      simp only [toList, List.mem_append, List.mem_cons] at he
      rcases he with he | rfl | he
      · exact Or.inr (Or.inl he)
      · exact Or.inl rfl
      · exact Or.inr (Or.inr (Or.inr he))
    · simp only [toList, List.mem_append, List.mem_cons] at he
      rcases he with he | rfl | he
      · rcases ihl he with h | h
        · exact Or.inl h
        · exact Or.inr (Or.inl h)
      · exact Or.inr (Or.inr (Or.inl rfl))
      · exact Or.inr (Or.inr (Or.inr he))
    · simp only [toList, List.mem_append, List.mem_cons] at he
      rcases he with he | rfl | he
      · exact Or.inr (Or.inl he)
      · exact Or.inr (Or.inr (Or.inl rfl))
      · rcases ihr he with h | h
        · exact Or.inl h
        · exact Or.inr (Or.inr (Or.inr h))

theorem isBST_insert (k : K) (v : V) (t : Node K V) (ht : IsBST t) : IsBST (insert k v t) := by
  induction t with
  | nil => simp [Node.insert, IsBST, toList]
  | node l key val r ihl ihr =>
    obtain ⟨hl, hr, hlk, hkr⟩ := (isBST_node l r key val).1 ht
    simp only [Node.insert]
    split_ifs with h1 h2
    · exact (isBST_node l r key v).2 ⟨hl, hr, hlk, hkr⟩
    · refine (isBST_node _ r key val).2 ⟨ihl hl, hr, ?_, hkr⟩
      intro e he
      rcases mem_insert k v l e he with rfl | h
      · exact h2
      · exact hlk e h
    · refine (isBST_node l _ key val).2 ⟨hl, ihr hr, hlk, ?_⟩
      intro e he
      rcases mem_insert k v r e he with rfl | h
      · exact lt_of_le_of_ne (not_lt.1 h2) (Ne.symm h1)
      · exact hkr e h

theorem key_unique (L : List (K × V)) (h : L.Pairwise (fun a b => a.1 < b.1)) (a b : K × V)
    (ha : a ∈ L) (hb : b ∈ L) (hk : a.1 = b.1) : a = b := by
  induction L with
  | nil => simp at ha
  | cons x xs ih =>
    obtain ⟨hx, hxs⟩ := List.pairwise_cons.1 h
    rcases List.mem_cons.1 ha with ha | ha <;> rcases List.mem_cons.1 hb with hb | hb
    · rw [ha, hb]
    · exact absurd (ha ▸ hk) (ne_of_lt (hx b hb))
    · exact absurd (hb ▸ hk.symm) (ne_of_lt (hx a ha))
    · exact ih hxs ha hb

/-- In an ordered tree the entry written by `insert` is the only one under its key. -/
theorem mem_insert_key (k : K) (v : V) (t : Node K V) (ht : IsBST t) (e : K × V)
    (he : e ∈ (insert k v t).toList) (hk : e.1 = k) : e = (k, v) :=
  key_unique _ (isBST_insert k v t ht) e (k, v) he (mem_insert_self k v t) hk

theorem map_fst_modify (k : K) (f : V → V) (t : Node K V) :
    (modify k f t).toList.map Prod.fst = t.toList.map Prod.fst := by
  induction t with
  | nil => rfl
  | node l key val r ihl ihr =>
    simp only [modify]
    split_ifs <;> simp [toList, ihl, ihr]

theorem isBST_modify (k : K) (f : V → V) (t : Node K V) (ht : IsBST t) :
    IsBST (modify k f t) := by
  unfold IsBST at *
  have h := map_fst_modify k f t
  rw [← List.pairwise_map (f := Prod.fst) (R := fun a b => a < b)] at *
  rw [h]
  exact ht

theorem mem_modify (k : K) (f : V → V) (t : Node K V) (e : K × V)
    (he : e ∈ (modify k f t).toList) :
    e ∈ t.toList ∨ ∃ v, (k, v) ∈ t.toList ∧ e = (k, f v) := by
  induction t with
  | nil => simp [modify, toList] at he
  | node l key val r ihl ihr =>
    simp only [modify] at he
    split_ifs at he with h1 h2
    · subst h1
      simp only [toList, List.mem_append, List.mem_cons] at he ⊢
      rcases he with he | rfl | he
      · exact Or.inl (Or.inl he)
      · exact Or.inr ⟨val, Or.inr (Or.inl rfl), rfl⟩
      · exact Or.inl (Or.inr (Or.inr he))
    · simp only [toList, List.mem_append, List.mem_cons] at he ⊢
      rcases he with he | rfl | he
      · rcases ihl he with h | ⟨w, hw, rfl⟩
        · exact Or.inl (Or.inl h)
        · exact Or.inr ⟨w, Or.inl hw, rfl⟩
      · exact Or.inl (Or.inr (Or.inl rfl))
      · exact Or.inl (Or.inr (Or.inr he))
    · simp only [toList, List.mem_append, List.mem_cons] at he ⊢
      rcases he with he | rfl | he
      · exact Or.inl (Or.inl he)
      · exact Or.inl (Or.inr (Or.inl rfl))
      · rcases ihr he with h | ⟨w, hw, rfl⟩
        · exact Or.inl (Or.inr (Or.inr h))
        · exact Or.inr ⟨w, Or.inr (Or.inr hw), rfl⟩

/-! ### `erase` -/

omit [LinearOrder K] in
theorem toList_eraseMin (d : K × V) (t : Node K V) (ht : t ≠ nil) :
    t.toList = minEntry d t :: (eraseMin t).toList := by
  induction t with
  | nil => exact absurd rfl ht
  | node l key val r ihl _ =>
    cases l with
    | nil => simp [toList, minEntry, eraseMin]
    | node ll lk lv lr =>
      have h := ihl (by simp)
      simp only [minEntry, eraseMin]
      rw [toList, h]
      simp [toList]

theorem toList_erase_root (l r : Node K V) (k : K) (v : V) :
    (erase k (node l k v r)).toList = l.toList ++ r.toList := by
  simp only [erase, if_true]
  cases l with
  | nil => simp [toList]
  | node ll lk lv lr =>
    cases r with
    | nil => simp [toList]
    | node rl rk rv rr =>
      simp only []
      rw [toList, toList_eraseMin (k, v) (node rl rk rv rr) (by simp)]

theorem toList_erase (k : K) (t : Node K V) (ht : IsBST t) :
    (erase k t).toList = t.toList.filter (fun e => !decide (e.1 = k)) := by
  induction t with
  | nil => simp [erase, toList]
  | node l key val r ihl ihr =>
    obtain ⟨hl, hr, hlk, hkr⟩ := (isBST_node l r key val).1 ht
    by_cases h1 : k = key
    · subst h1
      rw [toList_erase_root]
      have e1 : l.toList.filter (fun e => !decide (e.1 = k)) = l.toList :=
        List.filter_eq_self.2 fun e he => by simpa using ne_of_lt (hlk e he)
      have e2 : r.toList.filter (fun e => !decide (e.1 = k)) = r.toList :=
        List.filter_eq_self.2 fun e he => by simpa using ne_of_gt (hkr e he)
      simp [toList, List.filter_append, List.filter_cons, e1, e2]
    · have hkey : key ≠ k := fun h => h1 h.symm
      by_cases h2 : k < key
      · have e2 : r.toList.filter (fun e => !decide (e.1 = k)) = r.toList :=
          List.filter_eq_self.2 fun e he => by
            simpa using ne_of_gt (lt_trans h2 (hkr e he))
        simp [erase, h1, h2, toList, List.filter_append, List.filter_cons, ihl hl, e2, hkey]
      · have h3 : key < k := lt_of_le_of_ne (not_lt.1 h2) hkey
        have e1 : l.toList.filter (fun e => !decide (e.1 = k)) = l.toList :=
          List.filter_eq_self.2 fun e he => by
            simpa using ne_of_lt (lt_trans (hlk e he) h3)
        simp [erase, h1, h2, toList, List.filter_append, List.filter_cons, ihr hr, e1, hkey]

theorem isBST_erase (k : K) (t : Node K V) (ht : IsBST t) : IsBST (erase k t) := by
  unfold IsBST
  rw [toList_erase k t ht]
  exact List.Pairwise.sublist (List.filter_sublist _) ht

theorem mem_erase (k : K) (t : Node K V) (ht : IsBST t) (e : K × V) :
    e ∈ (erase k t).toList ↔ e ∈ t.toList ∧ e.1 ≠ k := by
  rw [toList_erase k t ht]
  simp

theorem pairwise_rangeEntries (lo hi : K) (t : Node K V) (ht : IsBST t) :
    (rangeEntries lo hi t).Pairwise (fun a b => a.1 < b.1) :=
  List.Pairwise.sublist (rangeEntries_sublist lo hi t) ht

end Node

/-! ## Strings and the heap -/

theorem tolower_idem (c : Nat) : tolower (tolower c) = tolower c := by
  unfold tolower
  split_ifs <;> omega

theorem toLower_idem (s : CString) : toLower (toLower s) = toLower s := by
  simp [toLower, tolower_idem]

namespace Engine

theorem prefixMatches_isPrefix (name pre : CString) (h : prefixMatches name pre = true) :
    pre <+: name := by
  induction pre generalizing name with
  | nil => exact List.nil_prefix
  | cons p pre ih =>
    cases name with
    | nil => simp [prefixMatches] at h
    | cons c name =>
      simp only [prefixMatches] at h
      split_ifs at h with hc
      have hc2 : c = p := by simpa using hc
      subst hc2
      exact (List.prefix_cons_inj c).2 (ih name h)

theorem setDeleted_length (h : List Record) (i : Nat) : (setDeleted h i).length = h.length := by
  induction h generalizing i with
  | nil => rfl
  | cons r rs ih => cases i <;> simp [setDeleted, ih]

theorem getElem?_setDeleted (h : List Record) (i s : Nat) :
    (setDeleted h i)[s]? =
      (h[s]?).map (fun r => if s = i then { r with deleted := true } else r) := by
  induction h generalizing i s with
  | nil => simp [setDeleted]
  | cons r rs ih =>
    cases i with
    | zero => cases s <;> simp [setDeleted]
    | succ i => cases s <;> simp [setDeleted, ih]

theorem scanHeap_none (id : Int) (h : List Record) :
    scanHeap id h = none ↔ ∀ r ∈ h, r.id ≠ id := by
  induction h with
  | nil => simp [scanHeap]
  | cons r rs ih =>
    simp only [scanHeap]
    split_ifs with hr
    · simp [hr]
    · simp [hr, ih]

theorem scanHeap_some (id : Int) (h : List Record) (i : Nat) (nm : CString)
    (hs : scanHeap id h = some (i, nm)) :
    (∃ r, h[i]? = some r ∧ r.id = id ∧ r.last = nm) ∧
      ∀ j r, j < i → h[j]? = some r → r.id ≠ id := by
  induction h generalizing i with
  | nil => simp [scanHeap] at hs
  | cons r rs ih =>
    simp only [scanHeap] at hs
    split_ifs at hs with hr
    · simp only [Option.some.injEq, Prod.mk.injEq] at hs
      obtain ⟨rfl, rfl⟩ := hs
      exact ⟨⟨r, by simp, hr, rfl⟩, fun j _ hj => absurd hj (Nat.not_lt_zero j)⟩
    · cases hrec : scanHeap id rs with
      | none => simp [hrec] at hs
      | some p =>
        obtain ⟨i0, nm0⟩ := p
        simp only [hrec, Option.map_some', Option.some.injEq, Prod.mk.injEq] at hs
        obtain ⟨rfl, rfl⟩ := hs
        obtain ⟨⟨r1, h1, h2, h3⟩, hmin⟩ := ih i0 hrec
        refine ⟨⟨r1, by simpa using h1, h2, h3⟩, ?_⟩
        intro j r2 hj hget
        cases j with
        | zero =>
          simp only [List.getElem?_cons_zero, Option.some.injEq] at hget
          subst hget
          exact hr
        | succ j =>
          simp only [List.getElem?_cons_succ] at hget
          exact hmin j r2 (by omega) hget

/-! ## What each operation does to the heap and to the two trees -/

theorem insertRecord_fst (e : Engine) (r : Record) : (e.insertRecord r).1 = e.heap.length := by
  unfold insertRecord
  cases h : e.lastIndex.root.find (toLower r.last) <;> simp [BST.find, h]

theorem insertRecord_heap (e : Engine) (r : Record) :
    (e.insertRecord r).2.heap = e.heap ++ [r] := by
  unfold insertRecord
  cases h : e.lastIndex.root.find (toLower r.last) <;> simp [BST.find, h]

theorem insertRecord_idRoot (e : Engine) (r : Record) :
    (e.insertRecord r).2.idIndex.root = e.idIndex.root.insert r.id e.heap.length := by
  unfold insertRecord
  cases h : e.lastIndex.root.find (toLower r.last) <;> simp [BST.find, BST.insert, h]

theorem insertRecord_lastRoot (e : Engine) (r : Record) :
    (e.insertRecord r).2.lastIndex.root =
      match e.lastIndex.root.find (toLower r.last) with
      | some _ => e.lastIndex.root.modify (toLower r.last) (fun lst => lst ++ [e.heap.length])
      | none => e.lastIndex.root.insert (toLower r.last) [e.heap.length] := by
  unfold insertRecord
  cases h : e.lastIndex.root.find (toLower r.last) <;> simp [BST.find, BST.insert, h]

theorem modify_of_find_none {K V : Type} [LinearOrder K] (k : K) (f : V → V) (t : Node K V)
    (h : t.find k = none) : t.modify k f = t := by
  induction t with
  | nil => rfl
  | node l key val r ihl ihr =>
    simp only [Node.find] at h
    simp only [Node.modify]
    split_ifs at h ⊢ with h1 h2
    · rw [ihl h]
    · rw [ihr h]

theorem deleteById_of_none (e : Engine) (id : Int) (h : scanHeap id e.heap = none) :
    e.deleteById id = (false, e) := by
  unfold deleteById
  rw [h]

theorem deleteById_of_some (e : Engine) (id : Int) (i : Nat) (nm : CString)
    (h : scanHeap id e.heap = some (i, nm)) :
    (e.deleteById id).1 = true ∧
    (e.deleteById id).2.heap = setDeleted e.heap i ∧
    (e.deleteById id).2.idIndex.root = e.idIndex.root.erase id ∧
    (e.deleteById id).2.lastIndex.root =
      e.lastIndex.root.modify (toLower nm) (fun lst => lst.erase i) := by
  unfold deleteById
  rw [h]
  cases hf : e.lastIndex.root.find (toLower nm) with
  | none => simp [BST.find, BST.erase, hf, modify_of_find_none]
  | some v => simp [BST.find, BST.erase, hf]

theorem findById_engine (e : Engine) (id : Int) :
    (e.findById id).engine = { e with idIndex := (e.idIndex.find id).2 } := by
  unfold findById
  simp only []
  split
  · rfl
  · split
    · rfl
    · split <;> rfl

theorem findById_result (e : Engine) (id : Int) :
    (e.findById id).result =
      match e.idIndex.root.find id with
      | none => none
      | some s => if live e.heap s then some s else none := by
  unfold findById live
  simp only [BST.find]
  cases e.idIndex.root.find id with
  | none => rfl
  | some s =>
    simp only []
    cases e.heap[s]? with
    | none => simp
    | some r => cases hd : r.deleted <;> simp [hd]

theorem rangeCallback_foldl (heap : List Record) (L : List (Int × Nat)) (init : List Nat) :
    L.foldl (fun a p => rangeCallback heap p.1 p.2 a) init =
      init ++ (L.filter (fun p => live heap p.2)).map Prod.snd := by
  induction L generalizing init with
  | nil => simp
  | cons p L ih =>
    simp only [List.foldl_cons, ih, List.filter_cons]
    unfold rangeCallback live
    cases heap[p.2]? with
    | none => simp
    | some r => cases hd : r.deleted <;> simp [hd]

theorem rangeById_result (e : Engine) (lo hi : Int) :
    (e.rangeById lo hi).result =
      ((e.idIndex.root.rangeEntries lo hi).filter (fun p => live e.heap p.2)).map Prod.snd := by
  simp [rangeById, BST.rangeApply, Node.rangeApply_eq_foldl, rangeCallback_foldl]

theorem rangeById_engine (e : Engine) (lo hi : Int) :
    (e.rangeById lo hi).engine =
      { e with idIndex := { e.idIndex with
          comparisons := e.idIndex.comparisons + (e.idIndex.root.rangeCmps lo hi : Nat) } } := by
  rfl

theorem prefixCallback_eq (heap : List Record) (lp nm : CString) (L res : List Nat) :
    prefixCallback heap lp nm L res = res ++ L.filter (prefixKeep heap lp nm) := by
  unfold prefixCallback
  induction L generalizing res with
  | nil => simp
  | cons s L ih =>
    simp only [List.foldl_cons, ih, List.filter_cons]
    unfold prefixKeep live
    cases heap[s]? with
    | none => simp
    | some r =>
      cases hd : r.deleted <;> simp [hd]
      split_ifs <;> simp_all

theorem prefixCallback_foldl (heap : List Record) (lp : CString)
    (L : List (CString × List Nat)) (init : List Nat) :
    L.foldl (fun a p => prefixCallback heap lp p.1 p.2 a) init =
      init ++ L.flatMap (fun p => p.2.filter (prefixKeep heap lp p.1)) := by
  induction L generalizing init with
  | nil => simp
  | cons p L ih =>
    rw [List.foldl_cons, ih, prefixCallback_eq, List.flatMap_cons, List.append_assoc]

theorem prefixByLast_result (e : Engine) (pre : CString) :
    (e.prefixByLast pre).result =
      (e.lastIndex.root.rangeEntries (toLower pre) (toLower pre ++ str "z")).flatMap
        (fun p => p.2.filter (prefixKeep e.heap (toLower pre) p.1)) := by
  simp [prefixByLast, BST.rangeApply, Node.rangeApply_eq_foldl, prefixCallback_foldl]

theorem prefixByLast_engine (e : Engine) (pre : CString) :
    (e.prefixByLast pre).engine =
      { e with lastIndex := { e.lastIndex with
          comparisons := e.lastIndex.comparisons +
            (e.lastIndex.root.rangeCmps (toLower pre) (toLower pre ++ str "z") : Nat) } } := by
  rfl

theorem getElem?_append_some (h l : List Record) (s : Nat) (r : Record)
    (hs : h[s]? = some r) : (h ++ l)[s]? = some r := by
  obtain ⟨hlt, _⟩ := List.getElem?_eq_some.1 hs
  rw [List.getElem?_append_left hlt]
  exact hs

theorem getElem?_setDeleted_some (h : List Record) (i s : Nat) (r : Record)
    (hs : h[s]? = some r) :
    ∃ r1, (setDeleted h i)[s]? = some r1 ∧ r1.id = r.id ∧ r1.last = r.last ∧
      r1.payload = r.payload ∧ (r.deleted = true → r1.deleted = true) ∧
      (s ≠ i → r1 = r) := by
  rw [getElem?_setDeleted, hs]
  by_cases hsi : s = i
  · exact ⟨{ r with deleted := true }, by simp [hsi], rfl, rfl, rfl, fun _ => rfl,
      fun h => absurd hsi h⟩
  · exact ⟨r, by simp [hsi], rfl, rfl, rfl, fun h => h, fun _ => rfl⟩

end Engine

/-! ## The invariant holds in every reachable state -/

theorem inv_empty : Inv Engine.empty := by
  constructor <;> simp [Engine.empty, BST.empty, Node.IsBST, Node.toList]

theorem inv_of_eq (e e1 : Engine) (hh : e1.heap = e.heap)
    (hi : e1.idIndex.root = e.idIndex.root) (hl : e1.lastIndex.root = e.lastIndex.root)
    (h : Inv e) : Inv e1 := by
  constructor
  · rw [hi]; exact h.idBST
  · rw [hi, hh]; exact h.idSlots
  · rw [hl]; exact h.lastBST
  · rw [hl, hh]; exact h.lastSlots

theorem inv_insertRecord (e : Engine) (r : Record) (h : Inv e) : Inv (e.insertRecord r).2 := by
  have hnew : (e.heap ++ [r])[e.heap.length]? = some r := List.getElem?_concat_length _ _
  constructor
  · rw [Engine.insertRecord_idRoot]
    exact Node.isBST_insert _ _ _ h.idBST
  · rw [Engine.insertRecord_idRoot, Engine.insertRecord_heap]
    intro p hp
    rcases Node.mem_insert _ _ _ p hp with rfl | hp
    · exact ⟨r, hnew, rfl⟩
    · obtain ⟨r0, h0, h1⟩ := h.idSlots p hp
      exact ⟨r0, Engine.getElem?_append_some _ _ _ _ h0, h1⟩
  · rw [Engine.insertRecord_lastRoot]
    cases e.lastIndex.root.find (toLower r.last) with
    | none => exact Node.isBST_insert _ _ _ h.lastBST
    | some v => exact Node.isBST_modify _ _ _ h.lastBST
  · rw [Engine.insertRecord_lastRoot, Engine.insertRecord_heap]
    have hold : ∀ p ∈ e.lastIndex.root.toList,
        p.2.Pairwise (fun a b => a < b) ∧
          ∀ s ∈ p.2, ∃ r0, (e.heap ++ [r])[s]? = some r0 ∧ toLower r0.last = p.1 := by
      intro p hp
      obtain ⟨h0, h1⟩ := h.lastSlots p hp
      refine ⟨h0, fun s hs => ?_⟩
      obtain ⟨r0, h2, h3⟩ := h1 s hs
      exact ⟨r0, Engine.getElem?_append_some _ _ _ _ h2, h3⟩
    cases e.lastIndex.root.find (toLower r.last) with
    | none =>
      intro p hp
      rcases Node.mem_insert _ _ _ p hp with rfl | hp
      · refine ⟨by simp, fun s hs => ?_⟩
        rw [List.mem_singleton.1 hs]
        exact ⟨r, hnew, rfl⟩
      · exact hold p hp
    | some v =>
      intro p hp
      rcases Node.mem_modify _ _ _ p hp with hp | ⟨w, hw, rfl⟩
      · exact hold p hp
      · obtain ⟨h0, h1⟩ := h.lastSlots _ hw
        constructor
        · refine List.pairwise_append.2 ⟨h0, by simp, ?_⟩
          intro a ha b hb
          rw [List.mem_singleton.1 hb]
          obtain ⟨r0, h2, _⟩ := h1 a ha
          exact (List.getElem?_eq_some.1 h2).1
        · intro s hs
          rcases List.mem_append.1 hs with hs | hs
          · obtain ⟨r0, h2, h3⟩ := h1 s hs
            exact ⟨r0, Engine.getElem?_append_some _ _ _ _ h2, h3⟩
          · rw [List.mem_singleton.1 hs]
            exact ⟨r, hnew, rfl⟩

theorem inv_deleteById (e : Engine) (id : Int) (h : Inv e) : Inv (e.deleteById id).2 := by
  cases hs : Engine.scanHeap id e.heap with
  | none =>
    rw [Engine.deleteById_of_none e id hs]
    exact h
  | some p =>
    obtain ⟨i, nm⟩ := p
    obtain ⟨_, hheap, hid, hlast⟩ := Engine.deleteById_of_some e id i nm hs
    constructor
    · rw [hid]
      exact Node.isBST_erase _ _ h.idBST
    · rw [hid, hheap]
      intro p hp
      obtain ⟨r0, h0, h1⟩ := h.idSlots p ((Node.mem_erase _ _ h.idBST p).1 hp).1
      obtain ⟨r1, h2, h3, _⟩ := Engine.getElem?_setDeleted_some e.heap i p.2 r0 h0
      exact ⟨r1, h2, h3.trans h1⟩
    · rw [hlast]
      exact Node.isBST_modify _ _ _ h.lastBST
    · rw [hlast, hheap]
      have hold : ∀ p ∈ e.lastIndex.root.toList,
          p.2.Pairwise (fun a b => a < b) ∧
            ∀ s ∈ p.2, ∃ r0, (Engine.setDeleted e.heap i)[s]? = some r0 ∧
              toLower r0.last = p.1 := by
        intro p hp
        obtain ⟨h0, h1⟩ := h.lastSlots p hp
        refine ⟨h0, fun s hs => ?_⟩
        obtain ⟨r0, h2, h3⟩ := h1 s hs
        obtain ⟨r1, h4, _, h5, _⟩ := Engine.getElem?_setDeleted_some e.heap i s r0 h2
        exact ⟨r1, h4, by rw [h5]; exact h3⟩
      intro p hp
      rcases Node.mem_modify _ _ _ p hp with hp | ⟨w, hw, rfl⟩
      · exact hold p hp
      · obtain ⟨h0, h1⟩ := hold _ hw
        exact ⟨List.Pairwise.sublist (List.erase_sublist _ _) h0,
          fun s hs => h1 s (List.mem_of_mem_erase hs)⟩

theorem inv_of_reachable (e : Engine) (h : Reachable e) : Inv e := by
  induction h with
  | init => exact inv_empty
  | insertRecord e r _ ih => exact inv_insertRecord e r ih
  | deleteById e id _ ih => exact inv_deleteById e id ih
  | findById e id _ ih =>
    rw [Engine.findById_engine]
    exact inv_of_eq e _ rfl rfl rfl ih
  | rangeById e lo hi _ ih => exact inv_of_eq e _ rfl rfl rfl ih
  | prefixByLast e pre _ ih => exact inv_of_eq e _ rfl rfl rfl ih

/-! ## Insert, delete and the heap -/

/-- C1: right after `s = insertRecord(r)` with `r.deleted = false`, from any
engine state (reachable or not, the id already present or not), `findById(r.id)`
returns the record at slot `s`, and that record is `r`, field for field. -/
theorem findById_insertRecord (e : Engine) (r : Record) (hr : r.deleted = false) :
    ((e.insertRecord r).2.findById r.id).result = some (e.insertRecord r).1 ∧
      (e.insertRecord r).2.heap[(e.insertRecord r).1]? = some r := by
  have hnew : (e.heap ++ [r])[e.heap.length]? = some r := List.getElem?_concat_length _ _
  rw [Engine.findById_result, Engine.insertRecord_idRoot, Engine.insertRecord_heap,
    Engine.insertRecord_fst, Node.find_insert_self]
  refine ⟨?_, hnew⟩
  simp [live, hnew, hr]

theorem findById_insertRecord_witness :
    (mkRec 7 "Jones").deleted = false ∧
      ((((Engine.empty.insertRecord (mkRec 7 "Smith")).2.insertRecord (mkRec 7 "Jones")).2.findById
          (mkRec 7 "Jones").id).result
        = some ((Engine.empty.insertRecord (mkRec 7 "Smith")).2.insertRecord (mkRec 7 "Jones")).1 ∧
      ((Engine.empty.insertRecord (mkRec 7 "Smith")).2.insertRecord (mkRec 7 "Jones")).2.heap[
          ((Engine.empty.insertRecord (mkRec 7 "Smith")).2.insertRecord (mkRec 7 "Jones")).1]?
        = some (mkRec 7 "Jones")) :=
  ⟨rfl, findById_insertRecord (Engine.empty.insertRecord (mkRec 7 "Smith")).2 (mkRec 7 "Jones") rfl⟩

/-- C2: in a reachable state, when `deleteById(id)` returns true, `findById(id)`
right after it reports not-found, and every record returned by `rangeById(lo, hi)`
with `lo <= id <= hi` is a heap record whose id differs from `id`. -/
theorem lookups_after_deleteById (e : Engine) (he : Reachable e) (id : Int)
    (hd : (e.deleteById id).1 = true) :
    ((e.deleteById id).2.findById id).result = none ∧
      ∀ lo hi : Int, lo ≤ id → id ≤ hi →
        ∀ s ∈ ((e.deleteById id).2.rangeById lo hi).result,
          ∃ r, (e.deleteById id).2.heap[s]? = some r ∧ r.id ≠ id := by
  have hinv := inv_deleteById e id (inv_of_reachable e he)
  cases hs : Engine.scanHeap id e.heap with
  | none =>
    rw [Engine.deleteById_of_none e id hs] at hd
    exact absurd hd (by simp)
  | some p =>
    obtain ⟨i, nm⟩ := p
    obtain ⟨_, _, hid, _⟩ := Engine.deleteById_of_some e id i nm hs
    have hkey : ∀ p ∈ (e.deleteById id).2.idIndex.root.toList, p.1 ≠ id := by
      rw [hid]
      intro p hp
      exact ((Node.mem_erase _ _ (inv_of_reachable e he).idBST p).1 hp).2
    constructor
    · rw [Engine.findById_result, Node.find_eq_none id _ hkey]
    · intro lo hi _ _ s hs
      rw [Engine.rangeById_result] at hs
      obtain ⟨p, hp, rfl⟩ := List.mem_map.1 hs
      have hp1 := (Node.rangeEntries_sublist lo hi _).subset (List.mem_filter.1 hp).1
      obtain ⟨r, h1, h2⟩ := hinv.idSlots p hp1
      exact ⟨r, h1, by rw [h2]; exact hkey p hp1⟩

theorem lookups_after_deleteById_witness :
    Reachable (Engine.empty.insertRecord (mkRec 7 "Smith")).2 ∧
      ((Engine.empty.insertRecord (mkRec 7 "Smith")).2.deleteById 7).1 = true ∧
      ((((Engine.empty.insertRecord (mkRec 7 "Smith")).2.deleteById 7).2.findById 7).result = none ∧
        ∀ lo hi : Int, lo ≤ 7 → 7 ≤ hi →
          ∀ s ∈ (((Engine.empty.insertRecord (mkRec 7 "Smith")).2.deleteById 7).2.rangeById
              lo hi).result,
            ∃ r, ((Engine.empty.insertRecord (mkRec 7 "Smith")).2.deleteById 7).2.heap[s]? = some r ∧
              r.id ≠ 7) :=
  ⟨Reachable.insertRecord _ _ Reachable.init, by decide,
    lookups_after_deleteById _ (Reachable.insertRecord _ _ Reachable.init) 7 (by decide)⟩

/-- C3, evaluated on the code: after inserting id 7 and deleting it (result
true), a second `deleteById(7)` with no insert in between returns true again,
because the heap scan also matches the tombstoned record at slot 0. -/
theorem deleteById_twice_returns_true :
    ((Engine.empty.insertRecord (mkRec 7 "Smith")).2.deleteById 7).1 = true ∧
      ((Engine.empty.insertRecord (mkRec 7 "Smith")).2.deleteById 7).2.heap
        = [{ mkRec 7 "Smith" with deleted := true }] ∧
      ((((Engine.empty.insertRecord (mkRec 7 "Smith")).2.deleteById 7).2.deleteById 7).1 = true) := by
  decide

/-- C4: when no heap record, tombstoned or not, has the id, `deleteById(id)`
returns false and the engine is left exactly as it was: heap, both trees and
both comparison counters. -/
theorem deleteById_absent (e : Engine) (id : Int) (h : ∀ r ∈ e.heap, r.id ≠ id) :
    e.deleteById id = (false, e) :=
  Engine.deleteById_of_none e id ((Engine.scanHeap_none id e.heap).2 h)

theorem deleteById_absent_witness :
    (∀ r ∈ (Engine.empty.insertRecord (mkRec 7 "Smith")).2.heap, r.id ≠ 8) ∧
      (Engine.empty.insertRecord (mkRec 7 "Smith")).2.deleteById 8
        = (false, (Engine.empty.insertRecord (mkRec 7 "Smith")).2) :=
  ⟨by decide, deleteById_absent _ 8 (by decide)⟩

theorem deleteById_heap (e : Engine) (id : Int) :
    ∃ i, (e.deleteById id).2.heap = Engine.setDeleted e.heap i := by
  cases hs : Engine.scanHeap id e.heap with
  | none =>
    rw [Engine.deleteById_of_none e id hs]
    refine ⟨e.heap.length, ?_⟩
    apply List.ext_getElem?
    intro s
    rw [Engine.getElem?_setDeleted]
    cases h : e.heap[s]? with
    | none => rfl
    | some r =>
      have hlt := (List.getElem?_eq_some.1 h).1
      simp [Nat.ne_of_lt hlt]
  | some p =>
    obtain ⟨i, nm⟩ := p
    exact ⟨i, (Engine.deleteById_of_some e id i nm hs).2.1⟩

/-- C10 (slot permanence), for every engine state: `insertRecord` returns the
old heap length, lengthens the heap by one and keeps every old slot as it was;
`deleteById` keeps the length, keeps every field of every record except that a
`deleted` flag may turn from false to true, and changes at most one slot; the
three lookups leave the heap untouched. -/
theorem heap_slots_permanent (e : Engine) (r : Record) (id lo hi : Int) (pre : CString) :
    ((e.insertRecord r).1 = e.heap.length ∧
      (e.insertRecord r).2.heap.length = e.heap.length + 1 ∧
      ∀ (s : Nat) (r0 : Record), e.heap[s]? = some r0 → (e.insertRecord r).2.heap[s]? = some r0) ∧
    ((e.deleteById id).2.heap.length = e.heap.length ∧
      (∀ (s : Nat) (r0 : Record), e.heap[s]? = some r0 →
        ∃ r1, (e.deleteById id).2.heap[s]? = some r1 ∧ r1.id = r0.id ∧ r1.last = r0.last ∧
          r1.payload = r0.payload ∧ (r0.deleted = true → r1.deleted = true)) ∧
      ∀ s1 s2 : Nat, (e.deleteById id).2.heap[s1]? ≠ e.heap[s1]? →
        (e.deleteById id).2.heap[s2]? ≠ e.heap[s2]? → s1 = s2) ∧
    ((e.findById id).engine.heap = e.heap ∧ (e.rangeById lo hi).engine.heap = e.heap ∧
      (e.prefixByLast pre).engine.heap = e.heap) := by
  refine ⟨⟨Engine.insertRecord_fst e r, ?_, ?_⟩, ?_, ?_⟩
  · rw [Engine.insertRecord_heap]
    simp
  · intro s r0 h
    rw [Engine.insertRecord_heap]
    exact Engine.getElem?_append_some _ _ _ _ h
  · obtain ⟨i, hheap⟩ := deleteById_heap e id
    rw [hheap]
    refine ⟨Engine.setDeleted_length _ _, ?_, ?_⟩
    · intro s r0 h
      obtain ⟨r1, h1, h2, h3, h4, h5, _⟩ := Engine.getElem?_setDeleted_some e.heap i s r0 h
      exact ⟨r1, h1, h2, h3, h4, h5⟩
    · have key : ∀ s, (Engine.setDeleted e.heap i)[s]? ≠ e.heap[s]? → s = i := by
        intro s hne
        by_contra hsi
        apply hne
        rw [Engine.getElem?_setDeleted]
        cases e.heap[s]? <;> simp [hsi]
      intro s1 s2 h1 h2
      rw [key s1 h1, key s2 h2]
  · rw [Engine.findById_engine]
    exact ⟨rfl, rfl, rfl⟩

/-! ## Range and prefix lookups -/

theorem live_iff (heap : List Record) (s : Nat) :
    live heap s = true ↔ ∃ r, heap[s]? = some r ∧ r.deleted = false := by
  unfold live
  cases heap[s]? with
  | none => simp
  | some r => simp

theorem mem_rangeById (e : Engine) (lo hi : Int) (s : Nat) :
    s ∈ (e.rangeById lo hi).result ↔
      ∃ k, (k, s) ∈ e.idIndex.root.rangeEntries lo hi ∧ live e.heap s = true := by
  rw [Engine.rangeById_result]
  simp [List.mem_map, List.mem_filter]

theorem inv_rangeById (e : Engine) (hinv : Inv e) (lo hi : Int) :
    (∀ s ∈ (e.rangeById lo hi).result,
        ∃ r, e.heap[s]? = some r ∧ r.deleted = false ∧ lo ≤ r.id ∧ r.id ≤ hi) ∧
      (e.rangeById lo hi).result.Pairwise
        (fun a b => ∃ ra rb, e.heap[a]? = some ra ∧ e.heap[b]? = some rb ∧ ra.id < rb.id) ∧
      (hi < lo → (e.rangeById lo hi).result = []) := by
  have hsound : ∀ s ∈ (e.rangeById lo hi).result,
      ∃ r, e.heap[s]? = some r ∧ r.deleted = false ∧ lo ≤ r.id ∧ r.id ≤ hi := by
    intro s hs
    obtain ⟨k, hk, hl⟩ := (mem_rangeById e lo hi s).1 hs
    obtain ⟨r, h1, h2⟩ := (live_iff _ _).1 hl
    obtain ⟨r0, h3, h4⟩ := hinv.idSlots (k, s) ((Node.rangeEntries_sublist lo hi _).subset hk)
    have hb := Node.rangeEntries_bounds lo hi _ _ hk
    have hr : r0 = r := Option.some.inj (h3.symm.trans h1)
    subst hr
    exact ⟨r0, h1, h2, by rw [h4]; exact hb.1, by rw [h4]; exact hb.2⟩
  refine ⟨hsound, ?_, ?_⟩
  · rw [Engine.rangeById_result, List.pairwise_map]
    apply List.Pairwise.filter
    refine List.Pairwise.imp_of_mem ?_ (Node.pairwise_rangeEntries lo hi _ hinv.idBST)
    intro a b ha hb hab
    obtain ⟨ra, h1, h2⟩ := hinv.idSlots a ((Node.rangeEntries_sublist lo hi _).subset ha)
    obtain ⟨rb, h3, h4⟩ := hinv.idSlots b ((Node.rangeEntries_sublist lo hi _).subset hb)
    exact ⟨ra, rb, h1, h3, by rw [h2, h4]; exact hab⟩
  · intro hlt
    apply List.eq_nil_iff_forall_not_mem.2
    intro s hs
    obtain ⟨r, _, _, h1, h2⟩ := hsound s hs
    exact absurd (le_trans h1 h2) (not_le.2 hlt)

/-- C6: in every reachable state (any records, any flags, ids reused or not),
every record `rangeById(lo, hi)` returns is a heap record with `deleted = false`
and `lo <= id <= hi`, the returned ids are strictly ascending, and nothing is
returned when `lo > hi`. -/
theorem rangeById_sound (e : Engine) (he : Reachable e) (lo hi : Int) :
    (∀ s ∈ (e.rangeById lo hi).result,
        ∃ r, e.heap[s]? = some r ∧ r.deleted = false ∧ lo ≤ r.id ∧ r.id ≤ hi) ∧
      (e.rangeById lo hi).result.Pairwise
        (fun a b => ∃ ra rb, e.heap[a]? = some ra ∧ e.heap[b]? = some rb ∧ ra.id < rb.id) ∧
      (hi < lo → (e.rangeById lo hi).result = []) :=
  inv_rangeById e (inv_of_reachable e he) lo hi

theorem rangeById_sound_witness :
    Reachable ((Engine.empty.insertRecord (mkRec 10 "Lee")).2.insertRecord (mkRec 5 "Kim")).2 ∧
      ((∀ s ∈ (((Engine.empty.insertRecord (mkRec 10 "Lee")).2.insertRecord
            (mkRec 5 "Kim")).2.rangeById 1 100).result,
          ∃ r, ((Engine.empty.insertRecord (mkRec 10 "Lee")).2.insertRecord
              (mkRec 5 "Kim")).2.heap[s]? = some r ∧ r.deleted = false ∧ 1 ≤ r.id ∧ r.id ≤ 100) ∧
        (((Engine.empty.insertRecord (mkRec 10 "Lee")).2.insertRecord
            (mkRec 5 "Kim")).2.rangeById 1 100).result.Pairwise
          (fun a b => ∃ ra rb,
            ((Engine.empty.insertRecord (mkRec 10 "Lee")).2.insertRecord
              (mkRec 5 "Kim")).2.heap[a]? = some ra ∧
            ((Engine.empty.insertRecord (mkRec 10 "Lee")).2.insertRecord
              (mkRec 5 "Kim")).2.heap[b]? = some rb ∧ ra.id < rb.id) ∧
        ((100 : Int) < 1 →
          (((Engine.empty.insertRecord (mkRec 10 "Lee")).2.insertRecord
            (mkRec 5 "Kim")).2.rangeById 1 100).result = [])) :=
  ⟨Reachable.insertRecord _ _ (Reachable.insertRecord _ _ Reachable.init),
    rangeById_sound _ (Reachable.insertRecord _ _ (Reachable.insertRecord _ _ Reachable.init))
      1 100⟩

theorem mem_prefixByLast (e : Engine) (pre : CString) (s : Nat) :
    s ∈ (e.prefixByLast pre).result ↔
      ∃ p, p ∈ e.lastIndex.root.rangeEntries (toLower pre) (toLower pre ++ str "z") ∧
        s ∈ p.2 ∧ prefixKeep e.heap (toLower pre) p.1 s = true := by
  rw [Engine.prefixByLast_result]
  simp [List.mem_flatMap, List.mem_filter]

theorem prefixKeep_iff (heap : List Record) (lp nm : CString) (s : Nat)
    (h : prefixKeep heap lp nm s = true) :
    live heap s = true ∧ lp <+: toLower nm := by
  unfold prefixKeep at h
  simp only [Bool.and_eq_true] at h
  exact ⟨h.1, Engine.prefixMatches_isPrefix _ _ h.2.2⟩

/-- C8: in every reachable state (any records, any flags), every record
`prefixByLast(prefix)` returns is a heap record with `deleted = false` whose
lowercased last name begins with the lowercased prefix. -/
theorem prefixByLast_sound (e : Engine) (he : Reachable e) (pre : CString) :
    ∀ s ∈ (e.prefixByLast pre).result,
      ∃ r, e.heap[s]? = some r ∧ r.deleted = false ∧ toLower pre <+: toLower r.last := by
  have hinv := inv_of_reachable e he
  intro s hs
  obtain ⟨p, hp, hsp, hk⟩ := (mem_prefixByLast e pre s).1 hs
  obtain ⟨hl, hpre⟩ := prefixKeep_iff _ _ _ _ hk
  obtain ⟨r, h1, h2⟩ := (live_iff _ _).1 hl
  obtain ⟨_, hslots⟩ := hinv.lastSlots p ((Node.rangeEntries_sublist _ _ _).subset hp)
  obtain ⟨r0, h3, h4⟩ := hslots s hsp
  have hr : r0 = r := Option.some.inj (h3.symm.trans h1)
  subst hr
  refine ⟨r0, h1, h2, ?_⟩
  rw [← h4, toLower_idem] at hpre
  exact hpre

theorem prefixByLast_sound_witness :
    Reachable ((Engine.empty.insertRecord (mkRec 1 "Smith")).2.insertRecord (mkRec 2 "Jones")).2 ∧
      ∀ s ∈ (((Engine.empty.insertRecord (mkRec 1 "Smith")).2.insertRecord
          (mkRec 2 "Jones")).2.prefixByLast (str "sm")).result,
        ∃ r, ((Engine.empty.insertRecord (mkRec 1 "Smith")).2.insertRecord
            (mkRec 2 "Jones")).2.heap[s]? = some r ∧ r.deleted = false ∧
          toLower (str "sm") <+: toLower r.last :=
  ⟨Reachable.insertRecord _ _ (Reachable.insertRecord _ _ Reachable.init),
    prefixByLast_sound _ (Reachable.insertRecord _ _ (Reachable.insertRecord _ _ Reachable.init))
      (str "sm")⟩

/-- C9: in every reachable state the slots `prefixByLast(prefix)` returns are
ordered by lowercased last name, ascending in the byte-wise lexicographic order
of strings, and slots with the same lowercased last name come in increasing
slot order, which is insertion order; hence no slot is returned twice. -/
theorem prefixByLast_ordered (e : Engine) (he : Reachable e) (pre : CString) :
    (e.prefixByLast pre).result.Pairwise
        (fun a b => ∃ ra rb, e.heap[a]? = some ra ∧ e.heap[b]? = some rb ∧
          (toLower ra.last < toLower rb.last ∨
            (toLower ra.last = toLower rb.last ∧ a < b))) ∧
      (e.prefixByLast pre).result.Nodup := by
  have hinv := inv_of_reachable e he
  have hmain : (e.prefixByLast pre).result.Pairwise
      (fun a b => ∃ ra rb, e.heap[a]? = some ra ∧ e.heap[b]? = some rb ∧
        (toLower ra.last < toLower rb.last ∨
          (toLower ra.last = toLower rb.last ∧ a < b))) := by
    rw [Engine.prefixByLast_result, List.pairwise_flatMap]
    constructor
    · intro p hp
      obtain ⟨hsorted, hslots⟩ := hinv.lastSlots p ((Node.rangeEntries_sublist _ _ _).subset hp)
      apply List.Pairwise.filter
      refine List.Pairwise.imp_of_mem ?_ hsorted
      intro a b ha hb hab
      obtain ⟨ra, h1, h2⟩ := hslots a ha
      obtain ⟨rb, h3, h4⟩ := hslots b hb
      exact ⟨ra, rb, h1, h3, Or.inr ⟨h2.trans h4.symm, hab⟩⟩
    · refine List.Pairwise.imp_of_mem ?_
        (Node.pairwise_rangeEntries _ _ _ hinv.lastBST)
      intro p q hp hq hpq a ha b hb
      obtain ⟨_, hp2⟩ := hinv.lastSlots p ((Node.rangeEntries_sublist _ _ _).subset hp)
      obtain ⟨_, hq2⟩ := hinv.lastSlots q ((Node.rangeEntries_sublist _ _ _).subset hq)
      obtain ⟨ra, h1, h2⟩ := hp2 a (List.mem_filter.1 ha).1
      obtain ⟨rb, h3, h4⟩ := hq2 b (List.mem_filter.1 hb).1
      exact ⟨ra, rb, h1, h3, Or.inl (by rw [h2, h4]; exact hpq)⟩
  refine ⟨hmain, ?_⟩
  refine List.Pairwise.imp ?_ hmain
  rintro a b ⟨ra, rb, h1, h3, h | h⟩ hab
  · subst hab
    have : ra = rb := Option.some.inj (h1.symm.trans h3)
    subst this
    exact lt_irrefl _ h
  · exact absurd hab (Nat.ne_of_lt h.2)

theorem prefixByLast_ordered_witness :
    Reachable ((Engine.empty.insertRecord (mkRec 1 "Anna")).2.insertRecord (mkRec 2 "anna")).2 ∧
      ((((Engine.empty.insertRecord (mkRec 1 "Anna")).2.insertRecord
            (mkRec 2 "anna")).2.prefixByLast (str "ann")).result.Pairwise
          (fun a b => ∃ ra rb,
            ((Engine.empty.insertRecord (mkRec 1 "Anna")).2.insertRecord
              (mkRec 2 "anna")).2.heap[a]? = some ra ∧
            ((Engine.empty.insertRecord (mkRec 1 "Anna")).2.insertRecord
              (mkRec 2 "anna")).2.heap[b]? = some rb ∧
            (toLower ra.last < toLower rb.last ∨
              (toLower ra.last = toLower rb.last ∧ a < b))) ∧
        (((Engine.empty.insertRecord (mkRec 1 "Anna")).2.insertRecord
            (mkRec 2 "anna")).2.prefixByLast (str "ann")).result.Nodup) ∧
      (((Engine.empty.insertRecord (mkRec 1 "Anna")).2.insertRecord
          (mkRec 2 "anna")).2.prefixByLast (str "ann")).result = [0, 1] :=
  ⟨Reachable.insertRecord _ _ (Reachable.insertRecord _ _ Reachable.init),
    prefixByLast_ordered _
      (Reachable.insertRecord _ _ (Reachable.insertRecord _ _ Reachable.init)) (str "ann"),
    by decide⟩

/-- The order on `CString` used by both indexes is the lexicographic one. -/
theorem cstring_lt_iff (a b : CString) : a < b ↔ List.Lex (fun x y => x < y) a b :=
  Iff.rfl

/-- C7, evaluated on the code: with the single live record "Piazza" in the heap,
whose lowercased last name begins with the lowercased prefix "pia",
`prefixByLast("Pia")` returns nothing, because "piazza" sorts after the upper
bound "piaz" of the band handed to `rangeApply`. -/
theorem prefixByLast_misses_piazza :
    (Engine.empty.insertRecord (mkRec 1 "Piazza")).2.heap[0]? = some (mkRec 1 "Piazza") ∧
      (mkRec 1 "Piazza").deleted = false ∧
      toLower (str "Pia") <+: toLower (mkRec 1 "Piazza").last ∧
      toLower (str "Pia") ++ str "z" < toLower (mkRec 1 "Piazza").last ∧
      ((Engine.empty.insertRecord (mkRec 1 "Piazza")).2.prefixByLast (str "Pia")).result = [] := by
  refine ⟨by decide, by decide, ⟨str "zza", by decide⟩, by decide, by decide⟩

/-! ## States without reused ids -/

theorem map_id_setDeleted (h : List Record) (i : Nat) :
    (Engine.setDeleted h i).map Record.id = h.map Record.id := by
  induction h generalizing i with
  | nil => rfl
  | cons r rs ih => cases i <;> simp [Engine.setDeleted, ih]

theorem slot_of_id (h : List Record) (hn : (h.map Record.id).Nodup) (s i : Nat)
    (a b : Record) (ha : h[s]? = some a) (hb : h[i]? = some b) (hab : a.id = b.id) :
    s = i := by
  have hs : s < (h.map Record.id).length := by
    rw [List.length_map]
    exact (List.getElem?_eq_some.1 ha).1
  apply List.getElem?_inj hs hn
  rw [List.getElem?_map, List.getElem?_map, ha, hb]
  simp [hab]

theorem invDistinct_empty : InvDistinct Engine.empty :=
  ⟨inv_empty, by simp [Engine.empty], by simp [Engine.empty]⟩

theorem invDistinct_of_eq (e e1 : Engine) (hh : e1.heap = e.heap)
    (hi : e1.idIndex.root = e.idIndex.root) (hl : e1.lastIndex.root = e.lastIndex.root)
    (h : InvDistinct e) : InvDistinct e1 := by
  refine ⟨inv_of_eq e e1 hh hi hl h.inv, ?_, ?_⟩
  · rw [hh]; exact h.ids
  · rw [hh, hi]; exact h.indexed

theorem invDistinct_insertRecord (e : Engine) (r : Record) (h : InvDistinct e)
    (hid : ∀ r0 ∈ e.heap, r0.id ≠ r.id) : InvDistinct (e.insertRecord r).2 := by
  refine ⟨inv_insertRecord e r h.inv, ?_, ?_⟩
  · rw [Engine.insertRecord_heap, List.map_append, List.nodup_append]
    refine ⟨h.ids, by simp, ?_⟩
    intro a ha hb
    simp only [List.map_cons, List.map_nil, List.mem_singleton] at hb
    obtain ⟨r0, h0, h1⟩ := List.mem_map.1 ha
    exact hid r0 h0 (h1.trans hb)
  · rw [Engine.insertRecord_heap, Engine.insertRecord_idRoot]
    intro s r1 hs hd
    by_cases hlt : s < e.heap.length
    · rw [List.getElem?_append_left hlt] at hs
      have hmem : r1 ∈ e.heap := List.getElem?_mem hs
      exact Node.mem_insert_of_mem _ _ _ _ (h.indexed s r1 hs hd) (hid r1 hmem)
    · have hlen : s < (e.heap ++ [r]).length := (List.getElem?_eq_some.1 hs).1
      have hs2 : s = e.heap.length := by
        simp only [List.length_append, List.length_singleton] at hlen
        omega
      subst hs2
      rw [List.getElem?_concat_length] at hs
      rw [← Option.some.inj hs]
      exact Node.mem_insert_self _ _ _

theorem invDistinct_deleteById (e : Engine) (id : Int) (h : InvDistinct e) :
    InvDistinct (e.deleteById id).2 := by
  cases hs : Engine.scanHeap id e.heap with
  | none =>
    rw [Engine.deleteById_of_none e id hs]
    exact h
  | some p =>
    obtain ⟨i, nm⟩ := p
    obtain ⟨_, hheap, hid, _⟩ := Engine.deleteById_of_some e id i nm hs
    obtain ⟨⟨ri, hri, hrid, _⟩, _⟩ := Engine.scanHeap_some id e.heap i nm hs
    refine ⟨inv_deleteById e id h.inv, ?_, ?_⟩
    · rw [hheap, map_id_setDeleted]
      exact h.ids
    · rw [hheap, hid]
      intro s r1 hs1 hd
      rw [Engine.getElem?_setDeleted] at hs1
      cases hget : e.heap[s]? with
      | none => simp [hget] at hs1
      | some r0 =>
        rw [hget] at hs1
        by_cases hsi : s = i
        · simp only [hsi, if_true, Option.map_some', Option.some.injEq] at hs1
          rw [← hs1] at hd
          simp at hd
        · simp only [hsi, if_false, Option.map_some', Option.some.injEq] at hs1
          subst hs1
          refine (Node.mem_erase _ _ h.inv.idBST _).2 ⟨h.indexed s r0 hget hd, ?_⟩
          intro hk
          exact hsi (slot_of_id e.heap h.ids s i r0 ri hget hri (hk.trans hrid.symm))

theorem invDistinct_of_reachable (e : Engine) (h : ReachableDistinct e) : InvDistinct e := by
  induction h with
  | init => exact invDistinct_empty
  | insertRecord e r _ hid ih => exact invDistinct_insertRecord e r ih hid
  | deleteById e id _ ih => exact invDistinct_deleteById e id ih
  | findById e id _ ih =>
    rw [Engine.findById_engine]
    exact invDistinct_of_eq e _ rfl rfl rfl ih
  | rangeById e lo hi _ ih => exact invDistinct_of_eq e _ rfl rfl rfl ih
  | prefixByLast e pre _ ih => exact invDistinct_of_eq e _ rfl rfl rfl ih

theorem reachable_of_distinct (e : Engine) (h : ReachableDistinct e) : Reachable e := by
  induction h with
  | init => exact Reachable.init
  | insertRecord e r _ _ ih => exact Reachable.insertRecord e r ih
  | deleteById e id _ ih => exact Reachable.deleteById e id ih
  | findById e id _ ih => exact Reachable.findById e id ih
  | rangeById e lo hi _ ih => exact Reachable.rangeById e lo hi ih
  | prefixByLast e pre _ ih => exact Reachable.prefixByLast e pre ih

/-- C5: in a state built without ever inserting an id twice (whatever
`deleteById` calls and lookups are interleaved), `rangeById(lo, hi)` returns
exactly the heap slots whose record is not tombstoned and has `lo <= id <= hi`,
in strictly ascending id order, each slot once. -/
theorem rangeById_exact (e : Engine) (he : ReachableDistinct e) (lo hi : Int) :
    (∀ s : Nat, s ∈ (e.rangeById lo hi).result ↔
        ∃ r, e.heap[s]? = some r ∧ r.deleted = false ∧ lo ≤ r.id ∧ r.id ≤ hi) ∧
      (e.rangeById lo hi).result.Pairwise
        (fun a b => ∃ ra rb, e.heap[a]? = some ra ∧ e.heap[b]? = some rb ∧ ra.id < rb.id) ∧
      (e.rangeById lo hi).result.Nodup := by
  have hd := invDistinct_of_reachable e he
  obtain ⟨hsound, hasc, _⟩ := inv_rangeById e hd.inv lo hi
  refine ⟨fun s => ⟨hsound s, ?_⟩, hasc, ?_⟩
  · rintro ⟨r, h1, h2, h3, h4⟩
    refine (mem_rangeById e lo hi s).2 ⟨r.id, ?_, (live_iff _ _).2 ⟨r, h1, h2⟩⟩
    exact Node.mem_rangeEntries lo hi _ hd.inv.idBST _ (hd.indexed s r h1 h2) h3 h4
  · refine List.Pairwise.imp ?_ hasc
    rintro a b ⟨ra, rb, h1, h3, h⟩ hab
    subst hab
    have : ra = rb := Option.some.inj (h1.symm.trans h3)
    subst this
    exact lt_irrefl _ h

theorem fourIds_reachable : ReachableDistinct fourIds :=
  ReachableDistinct.insertRecord _ _
    (ReachableDistinct.insertRecord _ _
      (ReachableDistinct.insertRecord _ _
        (ReachableDistinct.insertRecord _ _ ReachableDistinct.init (by decide))
        (by decide))
      (by decide))
    (by decide)

theorem rangeById_exact_witness :
    ReachableDistinct fourIds ∧
      ((∀ s : Nat, s ∈ (fourIds.rangeById 1 100).result ↔
          ∃ r, fourIds.heap[s]? = some r ∧ r.deleted = false ∧ 1 ≤ r.id ∧ r.id ≤ 100) ∧
        (fourIds.rangeById 1 100).result.Pairwise
          (fun a b => ∃ ra rb, fourIds.heap[a]? = some ra ∧ fourIds.heap[b]? = some rb ∧
            ra.id < rb.id) ∧
        (fourIds.rangeById 1 100).result.Nodup) ∧
      (fourIds.rangeById 1 100).result = [1, 0, 3, 2] ∧
      ((fourIds.rangeById 1 100).result.map fun s => (fourIds.heap[s]?).map Record.id)
        = [some 5, some 10, some 15, some 20] :=
  ⟨fourIds_reachable, rangeById_exact fourIds fourIds_reachable 1 100, by decide, by decide⟩

/-! ## More on the trees: `modify` entry by entry, point ranges -/

namespace Node

variable {K V : Type} [LinearOrder K]

theorem toList_modify (k : K) (f : V → V) (t : Node K V) (ht : IsBST t) :
    (modify k f t).toList = t.toList.map (fun p => if p.1 = k then (p.1, f p.2) else p) := by
  induction t with
  | nil => simp [modify, toList]
  | node l key val r ihl ihr =>
    obtain ⟨hl, hr, hlk, hkr⟩ := (isBST_node l r key val).1 ht
    have keep : ∀ L : List (K × V), (∀ e ∈ L, e.1 ≠ k) →
        L.map (fun p => if p.1 = k then (p.1, f p.2) else p) = L := by
      intro L hL
      conv_rhs => rw [← List.map_id L]
      apply List.map_congr_left
      intro p hp
      simp [hL p hp]
    by_cases h1 : k = key
    · subst h1
      have e1 := keep l.toList fun e he => ne_of_lt (hlk e he)
      have e2 := keep r.toList fun e he => ne_of_gt (hkr e he)
      simp [modify, toList, e1, e2]
    · have hkey : ¬ key = k := fun h => h1 h.symm
      by_cases h2 : k < key
      · have e2 := keep r.toList fun e he => ne_of_gt (lt_trans h2 (hkr e he))
        simp [modify, h1, h2, toList, ihl hl, e2, hkey]
      · have h3 : key < k := lt_of_le_of_ne (not_lt.1 h2) hkey
        have e1 := keep l.toList fun e he => ne_of_lt (lt_trans (hlk e he) h3)
        simp [modify, h1, h2, toList, ihr hr, e1, hkey]

theorem mem_modify_of_mem (k : K) (f : V → V) (t : Node K V) (ht : IsBST t) (k0 : K) (v : V)
    (h : (k0, v) ∈ t.toList) :
    (k0, if k0 = k then f v else v) ∈ (modify k f t).toList := by
  rw [toList_modify k f t ht]
  refine List.mem_map.2 ⟨(k0, v), h, ?_⟩
  by_cases hk : k0 = k <;> simp [hk]

theorem mem_modify_iff (k : K) (f : V → V) (t : Node K V) (ht : IsBST t) (e : K × V) :
    e ∈ (modify k f t).toList ↔
      (e ∈ t.toList ∧ e.1 ≠ k) ∨ ∃ v, (k, v) ∈ t.toList ∧ e = (k, f v) := by
  rw [toList_modify k f t ht, List.mem_map]
  constructor
  · rintro ⟨p, hp, rfl⟩
    by_cases hk : p.1 = k
    · right
      refine ⟨p.2, ?_, by simp [hk]⟩
      rw [← hk]
      exact hp
    · left
      simp [hk, hp]
  · rintro (⟨he, hk⟩ | ⟨v, hv, rfl⟩)
    · exact ⟨e, he, by simp [hk]⟩
    · exact ⟨(k, v), hv, by simp⟩

theorem not_mem_of_find_none (k : K) (t : Node K V) (ht : IsBST t) (h : t.find k = none)
    (e : K × V) (he : e ∈ t.toList) : e.1 ≠ k := by
  intro hk
  have := find_of_mem e.1 e.2 t ht he
  rw [hk, h] at this
  exact absurd this (by simp)

theorem rangeEntries_point (k : K) (t : Node K V) (ht : IsBST t) :
    rangeEntries k k t =
      match t.find k with
      | some v => [(k, v)]
      | none => [] := by
  induction t with
  | nil => simp [rangeEntries, find]
  | node l key val r ihl ihr =>
    obtain ⟨hl, hr, hlk, hkr⟩ := (isBST_node l r key val).1 ht
    simp only [rangeEntries, find]
    by_cases h1 : key < k
    · rw [if_pos h1, if_neg (ne_of_gt h1), if_neg (not_lt_of_gt h1)]
      exact ihr hr
    · rw [if_neg h1]
      by_cases h2 : k < key
      · rw [if_pos h2, if_neg (ne_of_lt h2), if_pos h2]
        exact ihl hl
      · have hk : k = key := le_antisymm (not_lt.1 h1) (not_lt.1 h2)
        subst hk
        rw [if_neg h2, if_pos rfl]
        have el : rangeEntries k k l = [] := by
          apply List.eq_nil_iff_forall_not_mem.2
          intro e he
          have hb := rangeEntries_bounds k k l e he
          exact absurd (hlk e ((rangeEntries_sublist k k l).subset he)) (not_lt.2 hb.1)
        have er : rangeEntries k k r = [] := by
          apply List.eq_nil_iff_forall_not_mem.2
          intro e he
          have hb := rangeEntries_bounds k k r e he
          exact absurd (hkr e ((rangeEntries_sublist k k r).subset he)) (not_lt.2 hb.2)
        simp [el, er]

end Node

theorem cstring_le_append (a b : CString) : a ≤ a ++ b := by
  induction a with
  | nil =>
    cases b with
    | nil => exact le_refl _
    | cons x xs => exact le_of_lt List.Lex.nil
  | cons x xs ih =>
    rcases lt_or_eq_of_le ih with h | h
    · exact le_of_lt (List.Lex.cons h)
    · exact le_of_eq (by rw [List.cons_append, ← h])

/-! ## Further invariants of reachable states -/

theorem live_append (h l : List Record) (s : Nat) (hs : live h s = true) :
    live (h ++ l) s = true := by
  obtain ⟨r, h1, h2⟩ := (live_iff h s).1 hs
  exact (live_iff _ s).2 ⟨r, Engine.getElem?_append_some h l s r h1, h2⟩

theorem live_setDeleted (h : List Record) (i s : Nat) (hne : s ≠ i) :
    live (Engine.setDeleted h i) s = live h s := by
  unfold live
  rw [Engine.getElem?_setDeleted]
  cases h[s]? <;> simp [hne]

theorem getElem?_setDeleted_live (h : List Record) (i s : Nat) (r1 : Record)
    (hs : (Engine.setDeleted h i)[s]? = some r1) (hd : r1.deleted = false) :
    s ≠ i ∧ h[s]? = some r1 := by
  rw [Engine.getElem?_setDeleted] at hs
  cases hget : h[s]? with
  | none => simp [hget] at hs
  | some r0 =>
    rw [hget] at hs
    by_cases hsi : s = i
    · simp only [hsi, if_true, Option.map_some', Option.some.injEq] at hs
      rw [← hs] at hd
      simp at hd
    · simp only [hsi, if_false, Option.map_some', Option.some.injEq] at hs
      exact ⟨hsi, by rw [hs]⟩

theorem listed_empty : Listed Engine.empty := by
  intro s r hs
  simp [Engine.empty] at hs

theorem listed_of_eq (e e1 : Engine) (hh : e1.heap = e.heap)
    (hl : e1.lastIndex.root = e.lastIndex.root) (h : Listed e) : Listed e1 := by
  unfold Listed
  rw [hh, hl]
  exact h

theorem listed_insertRecord (e : Engine) (r : Record) (hinv : Inv e) (h : Listed e) :
    Listed (e.insertRecord r).2 := by
  unfold Listed
  rw [Engine.insertRecord_heap, Engine.insertRecord_lastRoot]
  intro s r1 hs hd
  have hcase : (s < e.heap.length ∧ e.heap[s]? = some r1) ∨ (s = e.heap.length ∧ r1 = r) := by
    by_cases hlt : s < e.heap.length
    · rw [List.getElem?_append_left hlt] at hs
      exact Or.inl ⟨hlt, hs⟩
    · have hlen : s < (e.heap ++ [r]).length := (List.getElem?_eq_some.1 hs).1
      have hs2 : s = e.heap.length := by
        simp only [List.length_append, List.length_singleton] at hlen
        omega
      subst hs2
      rw [List.getElem?_concat_length] at hs
      exact Or.inr ⟨rfl, (Option.some.inj hs).symm⟩
  cases hf : e.lastIndex.root.find (toLower r.last) with
  | none =>
    simp only []
    rcases hcase with ⟨_, hold⟩ | ⟨rfl, rfl⟩
    · obtain ⟨lst, h1, h2⟩ := h s r1 hold hd
      have hne := Node.not_mem_of_find_none _ _ hinv.lastBST hf _ h1
      exact ⟨lst, Node.mem_insert_of_mem _ _ _ _ h1 hne, h2⟩
    · exact ⟨[e.heap.length], Node.mem_insert_self _ _ _, by simp⟩
  | some v =>
    simp only []
    rcases hcase with ⟨_, hold⟩ | ⟨rfl, rfl⟩
    · obtain ⟨lst, h1, h2⟩ := h s r1 hold hd
      refine ⟨_, Node.mem_modify_of_mem (toLower r.last) _ _ hinv.lastBST _ _ h1, ?_⟩
      split_ifs
      · exact List.mem_append.2 (Or.inl h2)
      · exact h2
    · have h1 := Node.mem_of_find _ _ _ hf
      have h2 := Node.mem_modify_of_mem (toLower r1.last)
        (fun lst => lst ++ [e.heap.length]) _ hinv.lastBST _ _ h1
      rw [if_pos rfl] at h2
      exact ⟨_, h2, by simp⟩

theorem listed_deleteById (e : Engine) (id : Int) (hinv : Inv e) (h : Listed e) :
    Listed (e.deleteById id).2 := by
  cases hs : Engine.scanHeap id e.heap with
  | none =>
    rw [Engine.deleteById_of_none e id hs]
    exact h
  | some p =>
    obtain ⟨i, nm⟩ := p
    obtain ⟨_, hheap, _, hlast⟩ := Engine.deleteById_of_some e id i nm hs
    unfold Listed
    rw [hheap, hlast]
    intro s r1 hs1 hd
    obtain ⟨hne, hold⟩ := getElem?_setDeleted_live _ _ _ _ hs1 hd
    obtain ⟨lst, h1, h2⟩ := h s r1 hold hd
    refine ⟨_, Node.mem_modify_of_mem (toLower nm) _ _ hinv.lastBST _ _ h1, ?_⟩
    split_ifs
    · exact (List.mem_erase_of_ne hne).2 h2
    · exact h2

theorem listed_of_reachable (e : Engine) (h : Reachable e) : Listed e := by
  induction h with
  | init => exact listed_empty
  | insertRecord e r he ih => exact listed_insertRecord e r (inv_of_reachable e he) ih
  | deleteById e id he ih => exact listed_deleteById e id (inv_of_reachable e he) ih
  | findById e id _ ih =>
    rw [Engine.findById_engine]
    exact listed_of_eq e _ rfl rfl ih
  | rangeById e lo hi _ ih => exact listed_of_eq e _ rfl rfl ih
  | prefixByLast e pre _ ih => exact listed_of_eq e _ rfl rfl ih

theorem reachable_of_live (e : Engine) (h : ReachableLive e) : Reachable e := by
  induction h with
  | init => exact Reachable.init
  | insertRecord e r _ _ ih => exact Reachable.insertRecord e r ih
  | deleteById e id _ ih => exact Reachable.deleteById e id ih
  | findById e id _ ih => exact Reachable.findById e id ih
  | rangeById e lo hi _ ih => exact Reachable.rangeById e lo hi ih
  | prefixByLast e pre _ ih => exact Reachable.prefixByLast e pre ih

theorem indexedLive_empty : IndexedLive Engine.empty := by
  constructor <;> simp [Engine.empty, BST.empty, Node.toList]

theorem indexedLive_of_eq (e e1 : Engine) (hh : e1.heap = e.heap)
    (hi : e1.idIndex.root = e.idIndex.root) (hl : e1.lastIndex.root = e.lastIndex.root)
    (h : IndexedLive e) : IndexedLive e1 := by
  constructor
  · rw [hi, hh]; exact h.idLive
  · rw [hl, hh]; exact h.lastLive

theorem indexedLive_insertRecord (e : Engine) (r : Record) (hr : r.deleted = false)
    (h : IndexedLive e) : IndexedLive (e.insertRecord r).2 := by
  have hnew : live (e.heap ++ [r]) e.heap.length = true :=
    (live_iff _ _).2 ⟨r, List.getElem?_concat_length _ _, hr⟩
  constructor
  · rw [Engine.insertRecord_idRoot, Engine.insertRecord_heap]
    intro p hp
    rcases Node.mem_insert _ _ _ p hp with rfl | hp
    · exact hnew
    · exact live_append _ _ _ (h.idLive p hp)
  · rw [Engine.insertRecord_lastRoot, Engine.insertRecord_heap]
    cases e.lastIndex.root.find (toLower r.last) with
    | none =>
      intro p hp s hs
      rcases Node.mem_insert _ _ _ p hp with rfl | hp
      · rw [List.mem_singleton.1 hs]
        exact hnew
      · exact live_append _ _ _ (h.lastLive p hp s hs)
    | some v =>
      intro p hp s hs
      rcases Node.mem_modify _ _ _ p hp with hp | ⟨w, hw, rfl⟩
      · exact live_append _ _ _ (h.lastLive p hp s hs)
      · rcases List.mem_append.1 hs with hs | hs
        · exact live_append _ _ _ (h.lastLive _ hw s hs)
        · rw [List.mem_singleton.1 hs]
          exact hnew

theorem indexedLive_deleteById (e : Engine) (id : Int) (hinv : Inv e) (h : IndexedLive e) :
    IndexedLive (e.deleteById id).2 := by
  cases hs : Engine.scanHeap id e.heap with
  | none =>
    rw [Engine.deleteById_of_none e id hs]
    exact h
  | some p =>
    obtain ⟨i, nm⟩ := p
    obtain ⟨_, hheap, hid, hlast⟩ := Engine.deleteById_of_some e id i nm hs
    obtain ⟨⟨ri, hri, hrid, hrl⟩, _⟩ := Engine.scanHeap_some id e.heap i nm hs
    constructor
    · rw [hid, hheap]
      intro p hp
      obtain ⟨hp1, hp2⟩ := (Node.mem_erase _ _ hinv.idBST p).1 hp
      obtain ⟨r0, h0, h1⟩ := hinv.idSlots p hp1
      have hne : p.2 ≠ i := by
        intro hpi
        rw [hpi, hri] at h0
        rw [← Option.some.inj h0] at h1
        exact hp2 (h1.symm.trans hrid)
      rw [live_setDeleted _ _ _ hne]
      exact h.idLive p hp1
    · rw [hlast, hheap]
      intro p hp s hs1
      rcases (Node.mem_modify_iff _ _ _ hinv.lastBST p).1 hp with ⟨hp1, hp2⟩ | ⟨v, hv, rfl⟩
      · obtain ⟨r0, h0, h1⟩ := (hinv.lastSlots p hp1).2 s hs1
        have hne : s ≠ i := by
          intro hsi
          rw [hsi, hri] at h0
          rw [← Option.some.inj h0, hrl] at h1
          exact hp2 h1.symm
        rw [live_setDeleted _ _ _ hne]
        exact h.lastLive p hp1 s hs1
      · have hnd : v.Nodup :=
          List.Pairwise.imp (fun hab => Nat.ne_of_lt hab) (hinv.lastSlots _ hv).1
        obtain ⟨hne, hsv⟩ := (List.Nodup.mem_erase_iff hnd).1 hs1
        rw [live_setDeleted _ _ _ hne]
        exact h.lastLive _ hv s hsv

theorem indexedLive_of_reachable (e : Engine) (h : ReachableLive e) : IndexedLive e := by
  induction h with
  | init => exact indexedLive_empty
  | insertRecord e r _ hr ih => exact indexedLive_insertRecord e r hr ih
  | deleteById e id he ih =>
    exact indexedLive_deleteById e id (inv_of_reachable e (reachable_of_live e he)) ih
  | findById e id _ ih =>
    rw [Engine.findById_engine]
    exact indexedLive_of_eq e _ rfl rfl rfl ih
  | rangeById e lo hi _ ih => exact indexedLive_of_eq e _ rfl rfl rfl ih
  | prefixByLast e pre _ ih => exact indexedLive_of_eq e _ rfl rfl rfl ih

/-! ## What is stored, what the indexes hold -/

/-- C11 as the code has it: after `s = insertRecord(record)` the heap record at
slot `s` is the input record with every field as given, so its tombstone flag
is the input's `deleted` field. -/
theorem insertRecord_stores_input (e : Engine) (r : Record) :
    (e.insertRecord r).2.heap[(e.insertRecord r).1]? = some r ∧
      ∀ r1, (e.insertRecord r).2.heap[(e.insertRecord r).1]? = some r1 →
        r1.deleted = r.deleted := by
  have h : (e.insertRecord r).2.heap[(e.insertRecord r).1]? = some r := by
    rw [Engine.insertRecord_heap, Engine.insertRecord_fst]
    exact List.getElem?_concat_length _ _
  refine ⟨h, fun r1 h1 => ?_⟩
  rw [h] at h1
  rw [← Option.some.inj h1]

/-- C11 fails as stated: a record inserted with `deleted = true` is stored with
its tombstone flag set. -/
theorem insertRecord_deleted_input_counterexample :
    ((Engine.empty.insertRecord { id := 1, last := str "Smith", payload := [], deleted := true }).2.heap[
        (Engine.empty.insertRecord
          { id := 1, last := str "Smith", payload := [], deleted := true }).1]?).map Record.deleted
      = some true := by
  decide

/-- C12 as the code has it: in every reachable state, a `lastIndex` entry has a
non-empty list whenever some non-tombstoned heap record has the entry's name as
its lowercased last name. -/
theorem lastIndex_list_nonempty (e : Engine) (he : Reachable e) (p : CString × List Nat)
    (hp : p ∈ e.lastIndex.root.toList) (s : Nat) (r : Record) (hs : e.heap[s]? = some r)
    (hd : r.deleted = false) (hn : toLower r.last = p.1) : s ∈ p.2 ∧ p.2 ≠ [] := by
  obtain ⟨lst, h1, h2⟩ := listed_of_reachable e he s r hs hd
  have hinv := inv_of_reachable e he
  have heq : (toLower r.last, lst) = p := Node.key_unique _ hinv.lastBST _ _ h1 hp hn
  rw [← heq]
  exact ⟨h2, List.ne_nil_of_mem h2⟩

theorem lastIndex_list_nonempty_witness :
    Reachable (Engine.empty.insertRecord (mkRec 7 "Smith")).2 ∧
      (str "smith", [0]) ∈ (Engine.empty.insertRecord (mkRec 7 "Smith")).2.lastIndex.root.toList ∧
      (Engine.empty.insertRecord (mkRec 7 "Smith")).2.heap[0]? = some (mkRec 7 "Smith") ∧
      (mkRec 7 "Smith").deleted = false ∧
      toLower (mkRec 7 "Smith").last = (str "smith", [0]).1 ∧
      (0 ∈ (str "smith", [0]).2 ∧ (str "smith", [0]).2 ≠ []) :=
  ⟨Reachable.insertRecord _ _ Reachable.init, by decide, by decide, by decide, by decide,
    lastIndex_list_nonempty (Engine.empty.insertRecord (mkRec 7 "Smith")).2
      (Reachable.insertRecord _ _ Reachable.init) (str "smith", [0])
      (by decide) 0 (mkRec 7 "Smith") (by decide) (by decide) (by decide)⟩

/-- C12 fails as stated: after inserting one record and deleting it by id, the
reachable state still has the `lastIndex` entry for its name, with an empty
list. -/
theorem lastIndex_empty_list_counterexample :
    Reachable ((Engine.empty.insertRecord (mkRec 7 "Smith")).2.deleteById 7).2 ∧
      ((Engine.empty.insertRecord (mkRec 7 "Smith")).2.deleteById 7).2.lastIndex.root.toList
        = [(str "smith", [])] :=
  ⟨Reachable.deleteById _ _ (Reachable.insertRecord _ _ Reachable.init), by decide⟩

/-! ## Comparison counts -/

theorem findById_cmpOut (e : Engine) (id : Int) :
    (e.findById id).cmpOut = (e.idIndex.root.findCmps id : Nat) := by
  have h : (e.findById id).cmpOut = (e.idIndex.find id).2.comparisons - e.idIndex.comparisons := by
    unfold Engine.findById
    simp only []
    split
    · rfl
    · split
      · rfl
      · split <;> rfl
  rw [h]
  simp [BST.find]

/-- C14: the `cmpOut` of `findById` and of `rangeById` is the increase of
`idIndex.comparisons` over the call, namely the comparisons of the one
`find` / `rangeApply` it runs, whatever the outcome of the lookup; that of
`prefixByLast` is the increase of `lastIndex.comparisons`. Each is at least 0,
and the call leaves the other index, the heap and both trees as they were. -/
theorem cmpOut_is_counter_increase (e : Engine) (id lo hi : Int) (pre : CString) :
    ((e.findById id).cmpOut = (e.findById id).engine.idIndex.comparisons - e.idIndex.comparisons ∧
      (e.findById id).cmpOut = (e.idIndex.root.findCmps id : Nat) ∧
      0 ≤ (e.findById id).cmpOut ∧
      (e.findById id).engine.lastIndex = e.lastIndex ∧
      (e.findById id).engine.heap = e.heap ∧
      (e.findById id).engine.idIndex.root = e.idIndex.root) ∧
    ((e.rangeById lo hi).cmpOut
        = (e.rangeById lo hi).engine.idIndex.comparisons - e.idIndex.comparisons ∧
      (e.rangeById lo hi).cmpOut = (e.idIndex.root.rangeCmps lo hi : Nat) ∧
      0 ≤ (e.rangeById lo hi).cmpOut ∧
      (e.rangeById lo hi).engine.lastIndex = e.lastIndex ∧
      (e.rangeById lo hi).engine.heap = e.heap ∧
      (e.rangeById lo hi).engine.idIndex.root = e.idIndex.root) ∧
    ((e.prefixByLast pre).cmpOut
        = (e.prefixByLast pre).engine.lastIndex.comparisons - e.lastIndex.comparisons ∧
      (e.prefixByLast pre).cmpOut
        = (e.lastIndex.root.rangeCmps (toLower pre) (toLower pre ++ str "z") : Nat) ∧
      0 ≤ (e.prefixByLast pre).cmpOut ∧
      (e.prefixByLast pre).engine.idIndex = e.idIndex ∧
      (e.prefixByLast pre).engine.heap = e.heap ∧
      (e.prefixByLast pre).engine.lastIndex.root = e.lastIndex.root) := by
  have hr : (e.rangeById lo hi).cmpOut = (e.idIndex.root.rangeCmps lo hi : Nat) := by
    simp [Engine.rangeById, BST.rangeApply]
  have hp : (e.prefixByLast pre).cmpOut
      = (e.lastIndex.root.rangeCmps (toLower pre) (toLower pre ++ str "z") : Nat) := by
    simp [Engine.prefixByLast, BST.rangeApply]
  refine ⟨⟨?_, findById_cmpOut e id, ?_, ?_, ?_, ?_⟩, ⟨?_, hr, ?_, rfl, rfl, rfl⟩,
    ⟨?_, hp, ?_, rfl, rfl, rfl⟩⟩
  · rw [findById_cmpOut, Engine.findById_engine]
    simp [BST.find]
  · rw [findById_cmpOut]
    exact Int.ofNat_nonneg _
  · rw [Engine.findById_engine]
  · rw [Engine.findById_engine]
  · rw [Engine.findById_engine]
    rfl
  · rw [hr, Engine.rangeById_engine]
    simp
  · rw [hr]
    exact Int.ofNat_nonneg _
  · rw [hp, Engine.prefixByLast_engine]
    simp
  · rw [hp]
    exact Int.ofNat_nonneg _

/-- C17: two engine states with the same `idIndex` tree report the same
`cmpOut` from `rangeById(lo, hi)`, whatever their heaps (in particular when the
heaps differ only in tombstone flags) and whatever the counters started at. -/
theorem rangeById_cmpOut_same_tree (e1 e2 : Engine) (h : e1.idIndex.root = e2.idIndex.root)
    (lo hi : Int) : (e1.rangeById lo hi).cmpOut = (e2.rangeById lo hi).cmpOut := by
  simp [Engine.rangeById, BST.rangeApply, h]

theorem rangeById_cmpOut_same_tree_witness :
    (Engine.empty.insertRecord (mkRec 5 "Kim")).2.idIndex.root
        = (Engine.empty.insertRecord { mkRec 5 "Kim" with deleted := true }).2.idIndex.root ∧
      ((Engine.empty.insertRecord (mkRec 5 "Kim")).2.rangeById 1 9).cmpOut
        = ((Engine.empty.insertRecord { mkRec 5 "Kim" with deleted := true }).2.rangeById 1 9).cmpOut ∧
      ((Engine.empty.insertRecord (mkRec 5 "Kim")).2.rangeById 1 9).result = [0] ∧
      ((Engine.empty.insertRecord { mkRec 5 "Kim" with deleted := true }).2.rangeById 1 9).result
        = [] :=
  ⟨by decide,
    rangeById_cmpOut_same_tree (Engine.empty.insertRecord (mkRec 5 "Kim")).2
      (Engine.empty.insertRecord { mkRec 5 "Kim" with deleted := true }).2 (by decide) 1 9,
    by decide, by decide⟩

/-! ## Index consistency and its consequences -/

theorem prefixMatches_self (s : CString) : Engine.prefixMatches s s = true := by
  induction s with
  | nil => rfl
  | cons c s ih => simp [Engine.prefixMatches, ih]

/-- A live record that is listed under its name is returned when
`prefixByLast` is called with its whole last name. -/
theorem mem_prefixByLast_last (e : Engine) (hinv : Inv e) (hl : Listed e) (s : Nat)
    (r : Record) (hs : e.heap[s]? = some r) (hd : r.deleted = false) :
    s ∈ (e.prefixByLast r.last).result := by
  obtain ⟨lst, h1, h2⟩ := hl s r hs hd
  refine (mem_prefixByLast e r.last s).2 ⟨(toLower r.last, lst), ?_, h2, ?_⟩
  · exact Node.mem_rangeEntries _ _ _ hinv.lastBST _ h1 (le_refl _) (cstring_le_append _ _)
  · unfold prefixKeep
    rw [toLower_idem, prefixMatches_self, (live_iff _ _).2 ⟨r, hs, hd⟩]
    simp

/-- C13: in a reachable state where `findById(k)` returns slot `s`, inserting a
live record `r2` with the same id `k` makes `findById(k)` return the new slot,
which differs from `s`; slot `s` is in no `rangeById` result any more; its heap
record is unchanged and not tombstoned; and `prefixByLast` called with that
record's last name still returns slot `s`. -/
theorem insertRecord_duplicate_id (e : Engine) (he : Reachable e) (k : Int) (s : Nat)
    (hf : (e.findById k).result = some s) (r2 : Record) (hk : r2.id = k)
    (hd : r2.deleted = false) :
    ((e.insertRecord r2).2.findById k).result = some (e.insertRecord r2).1 ∧
      (e.insertRecord r2).1 ≠ s ∧
      (∀ lo hi : Int, s ∉ ((e.insertRecord r2).2.rangeById lo hi).result) ∧
      ∃ r, e.heap[s]? = some r ∧ (e.insertRecord r2).2.heap[s]? = some r ∧
        r.deleted = false ∧ s ∈ ((e.insertRecord r2).2.prefixByLast r.last).result := by
  have hinv := inv_of_reachable e he
  have he2 : Reachable (e.insertRecord r2).2 := Reachable.insertRecord e r2 he
  have hinv2 := inv_of_reachable _ he2
  -- what the old lookup tells about slot `s`
  rw [Engine.findById_result] at hf
  cases hfind : e.idIndex.root.find k with
  | none => simp [hfind] at hf
  | some s0 =>
    rw [hfind] at hf
    simp only [] at hf
    split_ifs at hf with hlive
    have hs0 : s0 = s := Option.some.inj hf
    subst hs0
    obtain ⟨r, hr, hrd⟩ := (live_iff _ _).1 hlive
    have hlt : s0 < e.heap.length := (List.getElem?_eq_some.1 hr).1
    have hr2 : (e.insertRecord r2).2.heap[s0]? = some r := by
      rw [Engine.insertRecord_heap]
      exact Engine.getElem?_append_some _ _ _ _ hr
    have hnew : (e.heap ++ [r2])[e.heap.length]? = some r2 := List.getElem?_concat_length _ _
    refine ⟨?_, ?_, ?_, r, hr, hr2, hrd, ?_⟩
    · rw [Engine.findById_result, Engine.insertRecord_idRoot, Engine.insertRecord_heap,
        Engine.insertRecord_fst, ← hk, Node.find_insert_self]
      simp [live, hnew, hd]
    · rw [Engine.insertRecord_fst]
      exact Nat.ne_of_gt hlt
    · intro lo hi hmem
      obtain ⟨k1, hk1, _⟩ := (mem_rangeById _ lo hi s0).1 hmem
      have hk2 := (Node.rangeEntries_sublist lo hi _).subset hk1
      obtain ⟨r1, h1, h2⟩ := hinv2.idSlots (k1, s0) hk2
      obtain ⟨r0, h3, h4⟩ := hinv.idSlots (k, s0) (Node.mem_of_find _ _ _ hfind)
      have e1 : r1 = r := Option.some.inj (h1.symm.trans hr2)
      have e0 : r0 = r := Option.some.inj (h3.symm.trans hr)
      have hkk : k1 = r2.id := by
        simp only at h2 h4
        rw [← h2, e1, ← e0, h4, hk]
      rw [Engine.insertRecord_idRoot] at hk2
      have := Node.mem_insert_key r2.id e.heap.length _ hinv.idBST (k1, s0) hk2 hkk
      simp only [Prod.mk.injEq] at this
      exact absurd this.2 (Nat.ne_of_lt hlt)
    · exact mem_prefixByLast_last _ hinv2 (listed_of_reachable _ he2) s0 r hr2 hrd

theorem insertRecord_duplicate_id_witness :
    Reachable (Engine.empty.insertRecord (mkRec 3 "Smith")).2 ∧
      ((Engine.empty.insertRecord (mkRec 3 "Smith")).2.findById 3).result = some 0 ∧
      (mkRec 3 "Jones").id = 3 ∧ (mkRec 3 "Jones").deleted = false ∧
      ((((Engine.empty.insertRecord (mkRec 3 "Smith")).2.insertRecord (mkRec 3 "Jones")).2.findById
            3).result
          = some ((Engine.empty.insertRecord (mkRec 3 "Smith")).2.insertRecord (mkRec 3 "Jones")).1 ∧
        ((Engine.empty.insertRecord (mkRec 3 "Smith")).2.insertRecord (mkRec 3 "Jones")).1 ≠ 0 ∧
        (∀ lo hi : Int,
          0 ∉ (((Engine.empty.insertRecord (mkRec 3 "Smith")).2.insertRecord
            (mkRec 3 "Jones")).2.rangeById lo hi).result) ∧
        ∃ r, (Engine.empty.insertRecord (mkRec 3 "Smith")).2.heap[0]? = some r ∧
          ((Engine.empty.insertRecord (mkRec 3 "Smith")).2.insertRecord
            (mkRec 3 "Jones")).2.heap[0]? = some r ∧
          r.deleted = false ∧
          0 ∈ (((Engine.empty.insertRecord (mkRec 3 "Smith")).2.insertRecord
            (mkRec 3 "Jones")).2.prefixByLast r.last).result) :=
  ⟨Reachable.insertRecord _ _ Reachable.init, by decide, rfl, rfl,
    insertRecord_duplicate_id (Engine.empty.insertRecord (mkRec 3 "Smith")).2
      (Reachable.insertRecord _ _ Reachable.init) 3 0 (by decide) (mkRec 3 "Jones") rfl rfl⟩

/-- C18: when every inserted record comes with `deleted = false`, every
`idIndex` entry `(k, s)` of a reachable state has `s` inside the heap, with
`heap[s].id = k` and `heap[s].deleted = false`; so `findById` returns exactly
what `idIndex.find` returns, and is not-found exactly when `idIndex` holds no
entry for the id. -/
theorem idIndex_consistent (e : Engine) (he : ReachableLive e) :
    (∀ p ∈ e.idIndex.root.toList,
        p.2 < e.heap.length ∧
          ∃ r, e.heap[p.2]? = some r ∧ r.id = p.1 ∧ r.deleted = false) ∧
      (∀ id : Int, (e.findById id).result = e.idIndex.root.find id) ∧
      (∀ id : Int, (e.findById id).result = none ↔ ∀ p ∈ e.idIndex.root.toList, p.1 ≠ id) := by
  have hinv := inv_of_reachable e (reachable_of_live e he)
  have hlive := indexedLive_of_reachable e he
  have hfind : ∀ id : Int, (e.findById id).result = e.idIndex.root.find id := by
    intro id
    rw [Engine.findById_result]
    cases hf : e.idIndex.root.find id with
    | none => rfl
    | some s =>
      simp only []
      rw [if_pos (hlive.idLive (id, s) (Node.mem_of_find _ _ _ hf))]
  refine ⟨?_, hfind, ?_⟩
  · intro p hp
    obtain ⟨r, h1, h2⟩ := hinv.idSlots p hp
    obtain ⟨r1, h3, h4⟩ := (live_iff _ _).1 (hlive.idLive p hp)
    have e1 : r1 = r := Option.some.inj (h3.symm.trans h1)
    subst e1
    exact ⟨(List.getElem?_eq_some.1 h1).1, r1, h1, h2, h4⟩
  · intro id
    rw [hfind]
    constructor
    · intro hnone p hp
      exact Node.not_mem_of_find_none id _ hinv.idBST hnone p hp
    · exact Node.find_eq_none id _

theorem twoLive_reachable :
    ReachableLive ((Engine.empty.insertRecord (mkRec 3 "Smith")).2.insertRecord (mkRec 3 "Jones")).2 :=
  ReachableLive.insertRecord _ _ (ReachableLive.insertRecord _ _ ReachableLive.init rfl) rfl

theorem idIndex_consistent_witness :
    ReachableLive
        ((Engine.empty.insertRecord (mkRec 3 "Smith")).2.insertRecord (mkRec 3 "Jones")).2 ∧
      ((∀ p ∈ ((Engine.empty.insertRecord (mkRec 3 "Smith")).2.insertRecord
            (mkRec 3 "Jones")).2.idIndex.root.toList,
          p.2 < ((Engine.empty.insertRecord (mkRec 3 "Smith")).2.insertRecord
              (mkRec 3 "Jones")).2.heap.length ∧
            ∃ r, ((Engine.empty.insertRecord (mkRec 3 "Smith")).2.insertRecord
                (mkRec 3 "Jones")).2.heap[p.2]? = some r ∧ r.id = p.1 ∧ r.deleted = false) ∧
        (∀ id : Int,
          (((Engine.empty.insertRecord (mkRec 3 "Smith")).2.insertRecord
              (mkRec 3 "Jones")).2.findById id).result
            = ((Engine.empty.insertRecord (mkRec 3 "Smith")).2.insertRecord
              (mkRec 3 "Jones")).2.idIndex.root.find id) ∧
        (∀ id : Int,
          (((Engine.empty.insertRecord (mkRec 3 "Smith")).2.insertRecord
              (mkRec 3 "Jones")).2.findById id).result = none ↔
            ∀ p ∈ ((Engine.empty.insertRecord (mkRec 3 "Smith")).2.insertRecord
              (mkRec 3 "Jones")).2.idIndex.root.toList, p.1 ≠ id)) :=
  ⟨twoLive_reachable, idIndex_consistent _ twoLive_reachable⟩

/-- C19: when every inserted record comes with `deleted = false`, in a
reachable state `lastIndex` is ordered by name, every list in it is strictly
increasing, every listed slot is inside the heap and holds a non-tombstoned
record whose lowercased last name is the entry's name; and every
non-tombstoned heap slot is in the list of exactly one entry, exactly once. -/
theorem lastIndex_consistent (e : Engine) (he : ReachableLive e) :
    e.lastIndex.root.toList.Pairwise (fun a b => a.1 < b.1) ∧
      (∀ p ∈ e.lastIndex.root.toList,
        p.2.Pairwise (fun a b => a < b) ∧
          ∀ s ∈ p.2, s < e.heap.length ∧
            ∃ r, e.heap[s]? = some r ∧ toLower r.last = p.1 ∧ r.deleted = false) ∧
      (∀ (s : Nat) (r : Record), e.heap[s]? = some r → r.deleted = false →
        ∃ p, p ∈ e.lastIndex.root.toList ∧ s ∈ p.2 ∧ p.2.count s = 1 ∧
          ∀ q ∈ e.lastIndex.root.toList, s ∈ q.2 → q = p) := by
  have hr := reachable_of_live e he
  have hinv := inv_of_reachable e hr
  have hlive := indexedLive_of_reachable e he
  refine ⟨hinv.lastBST, ?_, ?_⟩
  · intro p hp
    obtain ⟨h1, h2⟩ := hinv.lastSlots p hp
    refine ⟨h1, fun s hs => ?_⟩
    obtain ⟨r, h3, h4⟩ := h2 s hs
    obtain ⟨r1, h5, h6⟩ := (live_iff _ _).1 (hlive.lastLive p hp s hs)
    have e1 : r1 = r := Option.some.inj (h5.symm.trans h3)
    subst e1
    exact ⟨(List.getElem?_eq_some.1 h3).1, r1, h3, h4, h6⟩
  · intro s r hs hd
    obtain ⟨lst, h1, h2⟩ := listed_of_reachable e hr s r hs hd
    have hnd : lst.Nodup :=
      List.Pairwise.imp (fun hab => Nat.ne_of_lt hab) (hinv.lastSlots _ h1).1
    refine ⟨(toLower r.last, lst), h1, h2, List.count_eq_one_of_mem hnd h2, ?_⟩
    intro q hq hsq
    obtain ⟨r1, h3, h4⟩ := (hinv.lastSlots q hq).2 s hsq
    have e1 : r1 = r := Option.some.inj (h3.symm.trans hs)
    subst e1
    exact Node.key_unique _ hinv.lastBST q (toLower r1.last, lst) hq h1 h4.symm

theorem twoNames_reachable :
    ReachableLive
      (((Engine.empty.insertRecord (mkRec 1 "Anna")).2.insertRecord (mkRec 2 "anna")).2.deleteById
        1).2 :=
  ReachableLive.deleteById _ _
    (ReachableLive.insertRecord _ _ (ReachableLive.insertRecord _ _ ReachableLive.init rfl) rfl)

theorem lastIndex_consistent_witness :
    ReachableLive
        (((Engine.empty.insertRecord (mkRec 1 "Anna")).2.insertRecord
          (mkRec 2 "anna")).2.deleteById 1).2 ∧
      ((((Engine.empty.insertRecord (mkRec 1 "Anna")).2.insertRecord
          (mkRec 2 "anna")).2.deleteById 1).2.lastIndex.root.toList.Pairwise
            (fun a b => a.1 < b.1) ∧
        (∀ p ∈ (((Engine.empty.insertRecord (mkRec 1 "Anna")).2.insertRecord
            (mkRec 2 "anna")).2.deleteById 1).2.lastIndex.root.toList,
          p.2.Pairwise (fun a b => a < b) ∧
            ∀ s ∈ p.2,
              s < (((Engine.empty.insertRecord (mkRec 1 "Anna")).2.insertRecord
                  (mkRec 2 "anna")).2.deleteById 1).2.heap.length ∧
                ∃ r, (((Engine.empty.insertRecord (mkRec 1 "Anna")).2.insertRecord
                    (mkRec 2 "anna")).2.deleteById 1).2.heap[s]? = some r ∧
                  toLower r.last = p.1 ∧ r.deleted = false) ∧
        (∀ (s : Nat) (r : Record),
          (((Engine.empty.insertRecord (mkRec 1 "Anna")).2.insertRecord
              (mkRec 2 "anna")).2.deleteById 1).2.heap[s]? = some r → r.deleted = false →
            ∃ p, p ∈ (((Engine.empty.insertRecord (mkRec 1 "Anna")).2.insertRecord
                (mkRec 2 "anna")).2.deleteById 1).2.lastIndex.root.toList ∧
              s ∈ p.2 ∧ p.2.count s = 1 ∧
              ∀ q ∈ (((Engine.empty.insertRecord (mkRec 1 "Anna")).2.insertRecord
                  (mkRec 2 "anna")).2.deleteById 1).2.lastIndex.root.toList,
                s ∈ q.2 → q = p)) ∧
      (((Engine.empty.insertRecord (mkRec 1 "Anna")).2.insertRecord
          (mkRec 2 "anna")).2.deleteById 1).2.lastIndex.root.toList = [(str "anna", [1])] :=
  ⟨twoNames_reachable, lastIndex_consistent _ twoNames_reachable, by decide⟩

/-- C20: in a reachable state, `rangeById(k, k)` returns the one-element
sequence holding the record `findById(k)` returns, and the empty sequence when
`findById(k)` reports not-found. -/
theorem rangeById_point (e : Engine) (he : Reachable e) (k : Int) :
    (∀ s : Nat, (e.findById k).result = some s → (e.rangeById k k).result = [s]) ∧
      ((e.findById k).result = none → (e.rangeById k k).result = []) := by
  have hinv := inv_of_reachable e he
  rw [Engine.findById_result, Engine.rangeById_result, Node.rangeEntries_point k _ hinv.idBST]
  cases e.idIndex.root.find k with
  | none => simp
  | some s0 =>
    simp only []
    by_cases hl : live e.heap s0 = true
    · simp [hl]
    · simp [hl]

theorem rangeById_point_witness :
    Reachable ((Engine.empty.insertRecord (mkRec 10 "Lee")).2.insertRecord (mkRec 5 "Kim")).2 ∧
      ((∀ s : Nat,
          (((Engine.empty.insertRecord (mkRec 10 "Lee")).2.insertRecord
              (mkRec 5 "Kim")).2.findById 5).result = some s →
            (((Engine.empty.insertRecord (mkRec 10 "Lee")).2.insertRecord
              (mkRec 5 "Kim")).2.rangeById 5 5).result = [s]) ∧
        ((((Engine.empty.insertRecord (mkRec 10 "Lee")).2.insertRecord
              (mkRec 5 "Kim")).2.findById 5).result = none →
          (((Engine.empty.insertRecord (mkRec 10 "Lee")).2.insertRecord
              (mkRec 5 "Kim")).2.rangeById 5 5).result = [])) ∧
      (((Engine.empty.insertRecord (mkRec 10 "Lee")).2.insertRecord
          (mkRec 5 "Kim")).2.findById 5).result = some 1 :=
  ⟨Reachable.insertRecord _ _ (Reachable.insertRecord _ _ Reachable.init),
    rangeById_point _ (Reachable.insertRecord _ _ (Reachable.insertRecord _ _ Reachable.init)) 5,
    by decide⟩

/-! ## `deleteById` in detail -/

theorem scanHeap_lowest (id : Int) (h : List Record) (s : Nat) (r : Record)
    (hs : h[s]? = some r) (hid : r.id = id)
    (hmin : ∀ (j : Nat) (r0 : Record), j < s → h[j]? = some r0 → r0.id ≠ id) :
    Engine.scanHeap id h = some (s, r.last) := by
  cases hscan : Engine.scanHeap id h with
  | none =>
    exact absurd hid ((Engine.scanHeap_none id h).1 hscan r (List.getElem?_mem hs))
  | some p =>
    obtain ⟨i, nm⟩ := p
    obtain ⟨⟨ri, h1, h2, h3⟩, h4⟩ := Engine.scanHeap_some id h i nm hscan
    have hle1 : ¬ i < s := fun hlt => hmin i ri hlt h1 h2
    have hle2 : ¬ s < i := fun hlt => h4 s r hlt hs hid
    have hi : i = s := by omega
    subst hi
    have e1 : ri = r := Option.some.inj (h1.symm.trans hs)
    rw [← h3, e1]

theorem deleteById_fst_iff (e : Engine) (id : Int) :
    (e.deleteById id).1 = true ↔ ∃ r ∈ e.heap, r.id = id := by
  cases hs : Engine.scanHeap id e.heap with
  | none =>
    rw [Engine.deleteById_of_none e id hs]
    have := (Engine.scanHeap_none id e.heap).1 hs
    constructor
    · intro h
      exact absurd h (by simp)
    · rintro ⟨r, hr, hrid⟩
      exact absurd hrid (this r hr)
  | some p =>
    obtain ⟨i, nm⟩ := p
    obtain ⟨⟨ri, h1, h2, _⟩, _⟩ := Engine.scanHeap_some id e.heap i nm hs
    exact ⟨fun _ => ⟨ri, List.getElem?_mem h1, h2⟩,
      fun _ => (Engine.deleteById_of_some e id i nm hs).1⟩

theorem find_after_deleteById (e : Engine) (hbst : e.idIndex.root.IsBST) (id : Int)
    (h : (e.deleteById id).1 = true) : (e.deleteById id).2.idIndex.root.find id = none := by
  cases hs : Engine.scanHeap id e.heap with
  | none =>
    rw [Engine.deleteById_of_none e id hs] at h
    exact absurd h (by simp)
  | some p =>
    obtain ⟨i, nm⟩ := p
    rw [(Engine.deleteById_of_some e id i nm hs).2.2.1]
    exact Node.find_eq_none id _ fun q hq => ((Node.mem_erase _ _ hbst q).1 hq).2

/-- C15: for every engine state whose two indexes are ordered trees and every
id, `deleteById(id)` returns true exactly when some heap record, tombstoned or
not, has that id; and then, with `s` the lowest slot holding that id, slot `s`
gets `deleted = true`, every other heap slot is unchanged, `idIndex` loses its
entry for `id` and keeps all others, and in `lastIndex` the list under the
lowercased last name of slot `s` loses its first occurrence of `s` while every
other entry is unchanged. -/
theorem deleteById_lowest_slot (e : Engine) (hid : e.idIndex.root.IsBST)
    (hlast : e.lastIndex.root.IsBST) (id : Int) :
    ((e.deleteById id).1 = true ↔ ∃ r ∈ e.heap, r.id = id) ∧
      ∀ (s : Nat) (r : Record), e.heap[s]? = some r → r.id = id →
        (∀ (j : Nat) (r0 : Record), j < s → e.heap[j]? = some r0 → r0.id ≠ id) →
        (e.deleteById id).1 = true ∧
          (e.deleteById id).2.heap[s]? = some { r with deleted := true } ∧
          (∀ j : Nat, j ≠ s → (e.deleteById id).2.heap[j]? = e.heap[j]?) ∧
          (e.deleteById id).2.idIndex.root.toList
            = e.idIndex.root.toList.filter (fun p => !decide (p.1 = id)) ∧
          (e.deleteById id).2.lastIndex.root.toList
            = e.lastIndex.root.toList.map
                (fun p => if p.1 = toLower r.last then (p.1, p.2.erase s) else p) := by
  refine ⟨deleteById_fst_iff e id, ?_⟩
  · intro s r hs hrid hmin
    have hscan := scanHeap_lowest id e.heap s r hs hrid hmin
    obtain ⟨h1, h2, h3, h4⟩ := Engine.deleteById_of_some e id s r.last hscan
    refine ⟨h1, ?_, ?_, ?_, ?_⟩
    · rw [h2, Engine.getElem?_setDeleted, hs]
      simp
    · intro j hj
      rw [h2, Engine.getElem?_setDeleted]
      cases e.heap[j]? <;> simp [hj]
    · rw [h3, Node.toList_erase id _ hid]
    · rw [h4, Node.toList_modify _ _ _ hlast]
      apply List.map_congr_left
      intro p _
      by_cases hp : p.1 = toLower r.last <;> simp [hp]

theorem sameIdTwice_reachable : Reachable sameIdTwice :=
  Reachable.insertRecord _ _ (Reachable.insertRecord _ _ Reachable.init)

theorem deleteById_lowest_slot_witness :
    sameIdTwice.idIndex.root.IsBST ∧ sameIdTwice.lastIndex.root.IsBST ∧
      (((sameIdTwice.deleteById 3).1 = true ↔ ∃ r ∈ sameIdTwice.heap, r.id = 3) ∧
        ∀ (s : Nat) (r : Record), sameIdTwice.heap[s]? = some r → r.id = 3 →
          (∀ (j : Nat) (r0 : Record), j < s → sameIdTwice.heap[j]? = some r0 → r0.id ≠ 3) →
          (sameIdTwice.deleteById 3).1 = true ∧
            (sameIdTwice.deleteById 3).2.heap[s]? = some { r with deleted := true } ∧
            (∀ j : Nat, j ≠ s → (sameIdTwice.deleteById 3).2.heap[j]? = sameIdTwice.heap[j]?) ∧
            (sameIdTwice.deleteById 3).2.idIndex.root.toList
              = sameIdTwice.idIndex.root.toList.filter (fun p => !decide (p.1 = 3)) ∧
            (sameIdTwice.deleteById 3).2.lastIndex.root.toList
              = sameIdTwice.lastIndex.root.toList.map
                  (fun p => if p.1 = toLower r.last then (p.1, p.2.erase s) else p)) ∧
      (sameIdTwice.deleteById 3).2.heap
        = [{ mkRec 3 "Smith" with deleted := true }, mkRec 3 "Jones"] ∧
      (sameIdTwice.deleteById 3).2.idIndex.root.toList = [] ∧
      sameIdTwice.lastIndex.root.toList = [(str "jones", [1]), (str "smith", [0])] ∧
      (sameIdTwice.deleteById 3).2.lastIndex.root.toList
        = [(str "jones", [1]), (str "smith", [])] :=
  ⟨(inv_of_reachable _ sameIdTwice_reachable).idBST,
    (inv_of_reachable _ sameIdTwice_reachable).lastBST,
    deleteById_lowest_slot sameIdTwice (inv_of_reachable _ sameIdTwice_reachable).idBST
      (inv_of_reachable _ sameIdTwice_reachable).lastBST 3,
    by decide, by decide, by decide, by decide⟩

/-- C16: starting from a fresh engine, for any two records with the same id
`k`, the second one live: `insertRecord(r1)`, `deleteById(k)`,
`insertRecord(r2)` (slot `s2`), `deleteById(k)`. Each insert finds no entry for
`k` in `idIndex`, both deletes return true, and after the last one the record at
slot `s2` is still `r2`, not tombstoned, and still returned by
`prefixByLast(r2.last)`, while `findById(k)` reports not-found and
`rangeById(k, k)` is empty. -/
theorem reinserted_record_not_deleted (r1 r2 : Record) (hk : r2.id = r1.id)
    (hd : r2.deleted = false) :
    Engine.empty.idIndex.root.find r1.id = none ∧
      (Engine.empty.insertRecord r1).2.deleteById r1.id = (true, reinsertRun1 r1) ∧
      (reinsertRun1 r1).idIndex.root.find r2.id = none ∧
      ((reinsertRun1 r1).insertRecord r2).2.deleteById r1.id = (true, reinsertRun r1 r2) ∧
      (reinsertRun r1 r2).heap[((reinsertRun1 r1).insertRecord r2).1]? = some r2 ∧
      ((reinsertRun1 r1).insertRecord r2).1
        ∈ ((reinsertRun r1 r2).prefixByLast r2.last).result ∧
      ((reinsertRun r1 r2).findById r1.id).result = none ∧
      ((reinsertRun r1 r2).rangeById r1.id r1.id).result = [] := by
  -- the two intermediate states are reachable
  have hr1 : Reachable (Engine.empty.insertRecord r1).2 := Reachable.insertRecord _ _ Reachable.init
  have hr2 : Reachable (reinsertRun1 r1) := Reachable.deleteById _ _ hr1
  have hr3 : Reachable ((reinsertRun1 r1).insertRecord r2).2 := Reachable.insertRecord _ _ hr2
  have hr4 : Reachable (reinsertRun r1 r2) := Reachable.deleteById _ _ hr3
  -- the heap along the run
  have hheap1 : (Engine.empty.insertRecord r1).2.heap = [r1] := by
    rw [Engine.insertRecord_heap]
    rfl
  have hscan1 : Engine.scanHeap r1.id (Engine.empty.insertRecord r1).2.heap
      = some (0, r1.last) := by
    rw [hheap1]
    simp [Engine.scanHeap]
  have hd1 := Engine.deleteById_of_some _ _ _ _ hscan1
  have hheap2 : (reinsertRun1 r1).heap = [{ r1 with deleted := true }] := by
    show ((Engine.empty.insertRecord r1).2.deleteById r1.id).2.heap = _
    rw [hd1.2.1, hheap1]
    rfl
  have hslot : ((reinsertRun1 r1).insertRecord r2).1 = 1 := by
    rw [Engine.insertRecord_fst, hheap2]
    rfl
  have hheap3 : ((reinsertRun1 r1).insertRecord r2).2.heap
      = [{ r1 with deleted := true }, r2] := by
    rw [Engine.insertRecord_heap, hheap2]
    rfl
  have hscan3 : Engine.scanHeap r1.id ((reinsertRun1 r1).insertRecord r2).2.heap
      = some (0, r1.last) := by
    rw [hheap3]
    simp [Engine.scanHeap]
  have hd3 := Engine.deleteById_of_some _ _ _ _ hscan3
  have hheap4 : (reinsertRun r1 r2).heap[1]? = some r2 := by
    show (((reinsertRun1 r1).insertRecord r2).2.deleteById r1.id).2.heap[1]? = _
    rw [hd3.2.1, hheap3]
    rfl
  have hfind4 : (reinsertRun r1 r2).idIndex.root.find r1.id = none :=
    find_after_deleteById _ (inv_of_reachable _ hr3).idBST r1.id hd3.1
  refine ⟨rfl, Prod.ext hd1.1 rfl, ?_, Prod.ext hd3.1 rfl, ?_, ?_, ?_, ?_⟩
  · rw [hk]
    exact find_after_deleteById _ (inv_of_reachable _ hr1).idBST r1.id hd1.1
  · rw [hslot]
    exact hheap4
  · rw [hslot]
    exact mem_prefixByLast_last _ (inv_of_reachable _ hr4) (listed_of_reachable _ hr4) 1 r2
      hheap4 hd
  · rw [Engine.findById_result, hfind4]
  · rw [Engine.rangeById_result, Node.rangeEntries_point _ _ (inv_of_reachable _ hr4).idBST,
      hfind4]
    rfl

theorem reinserted_record_not_deleted_witness :
    (mkRec 7 "Jones").id = (mkRec 7 "Smith").id ∧ (mkRec 7 "Jones").deleted = false ∧
      (Engine.empty.idIndex.root.find (mkRec 7 "Smith").id = none ∧
        (Engine.empty.insertRecord (mkRec 7 "Smith")).2.deleteById (mkRec 7 "Smith").id
          = (true, reinsertRun1 (mkRec 7 "Smith")) ∧
        (reinsertRun1 (mkRec 7 "Smith")).idIndex.root.find (mkRec 7 "Jones").id = none ∧
        ((reinsertRun1 (mkRec 7 "Smith")).insertRecord (mkRec 7 "Jones")).2.deleteById
            (mkRec 7 "Smith").id
          = (true, reinsertRun (mkRec 7 "Smith") (mkRec 7 "Jones")) ∧
        (reinsertRun (mkRec 7 "Smith") (mkRec 7 "Jones")).heap[
            ((reinsertRun1 (mkRec 7 "Smith")).insertRecord (mkRec 7 "Jones")).1]?
          = some (mkRec 7 "Jones") ∧
        ((reinsertRun1 (mkRec 7 "Smith")).insertRecord (mkRec 7 "Jones")).1
          ∈ ((reinsertRun (mkRec 7 "Smith") (mkRec 7 "Jones")).prefixByLast
              (mkRec 7 "Jones").last).result ∧
        ((reinsertRun (mkRec 7 "Smith") (mkRec 7 "Jones")).findById
            (mkRec 7 "Smith").id).result = none ∧
        ((reinsertRun (mkRec 7 "Smith") (mkRec 7 "Jones")).rangeById (mkRec 7 "Smith").id
            (mkRec 7 "Smith").id).result = []) ∧
      (reinsertRun (mkRec 7 "Smith") (mkRec 7 "Jones")).heap
        = [{ mkRec 7 "Smith" with deleted := true }, mkRec 7 "Jones"] :=
  ⟨rfl, rfl, reinserted_record_not_deleted (mkRec 7 "Smith") (mkRec 7 "Jones") rfl rfl,
    by decide⟩

end MiniDB
